import Mathlib

/-!
Shallow embedding of the pathfinding visualiser `pfinder.py` (grid model,
resets, maze generator, best-first search over A*/Dijkstra/Greedy, and the
path reconstructor), together with proofs of the specification claims.

Conventions of the embedding:
* a grid cell (`Node`) keeps the mutable fields of the Python class
  (`color`, `needs_refresh`, `g_score`, `h_score`, `parent_node`); the
  `row`/`column` fields are carried externally as the position in the grid;
* the Python globals `nodes`, `START`, `END`, `ROWS`, `COLUMNS` form the
  `GState` record; object identity of nodes becomes position equality;
* `float("inf")` g-scores become the `GScore.inf` constructor, finite scores
  are integers (all arithmetic performed on them in the source is integral);
* the pygame input polling is abstracted as a cancellation stream
  `cancel : Nat -> Bool` indexed by loop iteration, and `random.choice` in
  the maze generator as a choice stream `ch : Nat -> Nat` (index into the
  neighbour list, taken modulo its length);
* loops are fuel-indexed; `none` results signal either exhausted fuel or a
  Python-level crash (attribute access on `None`), as noted at each use.
-/

namespace PF

/-- Cell colors; these encode the visual state of the Python code.  The
gradient colors assigned by `draw_path` are abstracted as `pathCol k`; none
of them equals `grey`, which is all the model needs about them. -/
inductive Col where
  | white
  | blue
  | cyan
  | red
  | green
  | grey
  | pathCol (k : Nat)
deriving DecidableEq, Repr

/-- g-scores: `inf` models `float("inf")`, every finite value occurring in the
program is an integer. -/
inductive GScore where
  | inf
  | fin (v : Int)
deriving DecidableEq, Repr

/-- Strict comparison of g-scores, matching Python float comparison on the
values that occur (`inf` is greater than every finite value). -/
def gsLT : GScore → GScore → Bool
  | GScore.fin v, GScore.fin w => v < w
  | GScore.fin _, GScore.inf => true
  | GScore.inf, _ => false

/-- `x + 1` on g-scores (`inf + 1 = inf` in Python float arithmetic). -/
def gsAdd1 : GScore → GScore
  | GScore.inf => GScore.inf
  | GScore.fin v => GScore.fin (v + 1)

/-- `g + h` on g-scores with an integer heuristic. -/
def gsAddInt : GScore → Int → GScore
  | GScore.inf, _ => GScore.inf
  | GScore.fin v, h => GScore.fin (v + h)

/-- The mutable per-cell state of the Python `Node` class. -/
structure Node where
  color : Col
  needs_refresh : Bool
  g_score : GScore
  h_score : Int
  parent_node : Option (Nat × Nat)
deriving DecidableEq, Repr

/-- The field values set by `Node.__init__`. -/
def initNode : Node :=
  { color := Col.white, needs_refresh := true, g_score := GScore.inf,
    h_score := 0, parent_node := none }

/-- The Python globals: the node grid, its dimensions, and the `START` and
`END` references (as positions; `none` is Python `None`). -/
structure GState where
  ROWS : Nat
  COLUMNS : Nat
  nodes : List (List Node)
  START : Option (Nat × Nat)
  END : Option (Nat × Nat)
deriving DecidableEq, Repr

/-- The node at a position (out-of-range reads return the `__init__` values;
well-formedness keeps every modelled access in range). -/
def nodeAt (s : GState) (p : Nat × Nat) : Node :=
  ((s.nodes.getD p.1 []).getD p.2 initNode)

/-- Replace the node at a position (out-of-range writes are dropped). -/
def setNode (s : GState) (p : Nat × Nat) (nd : Node) : GState :=
  { s with nodes := s.nodes.set p.1 ((s.nodes.getD p.1 []).set p.2 nd) }

/-- Update the node at a position by a field transformation. -/
def updNode (s : GState) (p : Nat × Nat) (f : Node → Node) : GState :=
  setNode s p (f (nodeAt s p))

/-- Position in range of the grid dimensions. -/
def inB (s : GState) (p : Nat × Nat) : Prop :=
  p.1 < s.ROWS ∧ p.2 < s.COLUMNS

instance (s : GState) (p : Nat × Nat) : Decidable (inB s p) := by
  unfold inB; infer_instance

/-- The grid really is a `ROWS × COLUMNS` array, as built by `create_nodes`. -/
def wf (s : GState) : Prop :=
  s.nodes.length = s.ROWS ∧ ∀ row ∈ s.nodes, row.length = s.COLUMNS

instance (s : GState) : Decidable (wf s) := by
  unfold wf; infer_instance

/-- All grid positions in row-major order (the iteration order of
`for row in nodes: for node in row`). -/
def allPositions (s : GState) : List (Nat × Nat) :=
  (List.range s.ROWS).flatMap (fun r => (List.range s.COLUMNS).map (fun c => (r, c)))

/-- `node == START` (object identity becomes position equality). -/
def is_start (s : GState) (p : Nat × Nat) : Bool :=
  s.START == some p

/-- `node == END`. -/
def is_end (s : GState) (p : Nat × Nat) : Bool :=
  s.END == some p

/-- `self.color == GREY`. -/
def is_obstacle (s : GState) (p : Nat × Nat) : Bool :=
  (nodeAt s p).color == Col.grey

/-- `self.color == GREEN`. -/
def is_active (s : GState) (p : Nat × Nat) : Bool :=
  (nodeAt s p).color == Col.green

/-- `self.color == RED or self.is_start()`. -/
def is_visited (s : GState) (p : Nat × Nat) : Bool :=
  (nodeAt s p).color == Col.red || is_start s p

/-- `self.color == WHITE`. -/
def is_normal (s : GState) (p : Nat × Nat) : Bool :=
  (nodeAt s p).color == Col.white

/-- `Node.get_neighbours(n)`: bounds-checked axial offsets, in the source
order up, left, down, right.  The guards mirror `self.row > n-1`,
`self.column > n-1`, `self.row < ROWS-n`, `self.column < COLUMNS-n`; for the
step sizes used by the program (`n = 1` and `n = 2`) truncated natural
subtraction agrees with the Python integer arithmetic. -/
def get_neighbours (s : GState) (p : Nat × Nat) (n : Nat) : List (Nat × Nat) :=
  (if p.1 > n - 1 then [(p.1 - n, p.2)] else []) ++
  (if p.2 > n - 1 then [(p.1, p.2 - n)] else []) ++
  (if p.1 < s.ROWS - n then [(p.1 + n, p.2)] else []) ++
  (if p.2 < s.COLUMNS - n then [(p.1, p.2 + n)] else [])

/-- `Node.update_h_score` with the end node at `e`: the Manhattan heuristic
`abs(END.row - row) + abs(END.column - column)`. -/
def update_h_score (s : GState) (e : Nat × Nat) (p : Nat × Nat) : GState :=
  updNode s p (fun nd =>
    { nd with h_score :=
        (((e.1 : Int) - (p.1 : Int)).natAbs + ((e.2 : Int) - (p.2 : Int)).natAbs : Nat) })

/-- The three algorithm selections of the `ALG` global. -/
inductive Alg where
  | astar
  | djikstra
  | greedy
deriving DecidableEq, Repr

/-- `Node.f_score`: `g_score + h_score`. -/
def f_score (nd : Node) : GScore :=
  gsAddInt nd.g_score nd.h_score

/-- `Node.score`: the priority key selected by the current algorithm. -/
def score (alg : Alg) (nd : Node) : GScore :=
  match alg with
  | Alg.astar => f_score nd
  | Alg.djikstra => nd.g_score
  | Alg.greedy => GScore.fin nd.h_score

/-- `Node.make_start`: a no-op when the cell is the End cell. -/
def make_start (s : GState) (p : Nat × Nat) : GState :=
  if is_end s p then s
  else
    let s' := updNode s p (fun nd => { nd with color := Col.blue, needs_refresh := true })
    { s' with START := some p }

/-- `Node.make_end`: a no-op when the cell is the Start cell. -/
def make_end (s : GState) (p : Nat × Nat) : GState :=
  if is_start s p then s
  else
    let s' := updNode s p (fun nd => { nd with color := Col.cyan, needs_refresh := true })
    { s' with END := some p }

/-- `Node.make_obstacle`: a no-op on the Start or End cell. -/
def make_obstacle (s : GState) (p : Nat × Nat) : GState :=
  if ¬ is_end s p ∧ ¬ is_start s p then
    updNode s p (fun nd => { nd with color := Col.grey, needs_refresh := true })
  else s

/-- `Node.make_active`. -/
def make_active (s : GState) (p : Nat × Nat) : GState :=
  updNode s p (fun nd => { nd with color := Col.green, needs_refresh := true })

/-- `Node.make_visited`: a no-op on the Start cell. -/
def make_visited (s : GState) (p : Nat × Nat) : GState :=
  if ¬ is_start s p then
    updNode s p (fun nd => { nd with color := Col.red, needs_refresh := true })
  else s

/-- `Node.reset`: clears the Start/End designation when the cell carries it,
then restores color, parent and g-score to their initial values. -/
def resetNode (s : GState) (p : Nat × Nat) : GState :=
  let s' :=
    if is_start s p then { s with START := none }
    else if is_end s p then { s with END := none }
    else s
  updNode s' p (fun nd =>
    { nd with
      color := Col.white, parent_node := none, g_score := GScore.inf,
      needs_refresh := true })

/-- Body of the mode-1 pass of `reset_grid`: reset the cell unless it is the
Start, End or an Obstacle cell. -/
def resetSel (s : GState) (p : Nat × Nat) : GState :=
  if ¬ is_start s p ∧ ¬ is_end s p ∧ ¬ is_obstacle s p then resetNode s p else s

/-- `reset_grid(mode)`.  Mode 0 resets every cell.  Mode 1 resets the cells
that are not Start/End/Obstacle and then unconditionally accesses `END` to
clear its g-score and parent; when `END` is `None` that access raises, which
the model renders as `none`. -/
def reset_grid (s : GState) (mode : Nat) : Option GState :=
  if mode = 0 then
    some ((allPositions s).foldl resetNode s)
  else if mode = 1 then
    let s' := (allPositions s).foldl resetSel s
    match s'.END with
    | none => none
    | some e =>
        some (updNode s' e (fun nd =>
          { nd with
            g_score := GScore.inf, parent_node := none }))
  else some s

/-- Total wrapper for the mode-1 reset used inside the search loop, where the
End reference is always set (the theorems carry that hypothesis). -/
def reset_grid1! (s : GState) : GState :=
  (reset_grid s 1).getD s

/-- `create_nodes`: a fresh `ROWS × COLUMNS` grid of `__init__` cells with no
Start/End designated. -/
def create_nodes (R C : Nat) : GState :=
  { ROWS := R, COLUMNS := C, nodes := List.replicate R (List.replicate C initNode),
    START := none, END := none }

/-! ### Maze generator -/

/-- One iteration of the `generate_maze` carving loop on the pair of the grid
and the `active` stack (list head = stack top).  `ch t` selects the random
neighbour (`random.choice`); `t` counts the choices made so far. -/
def mazeStep (ch : Nat → Nat) (t : Nat) (s : GState) (current : Nat × Nat)
    (rest : List (Nat × Nat)) : GState × List (Nat × Nat) × Nat :=
  let s1 := make_active s current
  let s2 := resetNode s1 current
  let nbs := (get_neighbours s2 current 2).filter (fun q => ¬ is_normal s2 q)
  match nbs with
  | [] => (s2, rest, t)
  | _ :: _ =>
      let nxt := nbs.getD (ch t % nbs.length) (0, 0)
      let wall := ((current.1 + nxt.1) / 2, (current.2 + nxt.2) / 2)
      let s3 := resetNode s2 wall
      let s4 := resetNode s3 nxt
      (s4, nxt :: current :: rest, t + 1)

/-- The fuel-indexed carving loop: `while active: ...`. -/
def mazeLoop (ch : Nat → Nat) : Nat → Nat → GState → List (Nat × Nat) →
    GState × List (Nat × Nat)
  | 0, _, s, active => (s, active)
  | fuel + 1, t, s, active =>
      match active with
      | [] => (s, active)
      | current :: rest =>
          let r := mazeStep ch t s current rest
          mazeLoop ch fuel r.2.2 r.1 r.2.1

/-- `generate_maze`: full reset, everything an obstacle, carve from the
origin, then designate Start at the origin and End at
`nodes[ROWS-1][COLUMNS-2]` (for `COLUMNS ∈ {1, 2}` the Python negative index
wraps to column 0, which truncated subtraction reproduces). -/
def generate_maze (s0 : GState) (ch : Nat → Nat) : GState :=
  let s1 := (reset_grid s0 0).getD s0
  let s2 := (allPositions s1).foldl make_obstacle s1
  let s3 := resetNode s2 (0, 0)
  let r := mazeLoop ch (2 * s3.ROWS * s3.COLUMNS + 2) 0 s3 [(0, 0)]
  let s4 := make_start r.1 (0, 0)
  make_end s4 (s4.ROWS - 1, s4.COLUMNS - 2)

/-! ### Search engine -/

/-- A priority-queue entry `(score, insertion_index, node)`. -/
abbrev Entry := GScore × Nat × (Nat × Nat)

/-- Strict comparison of queue keys `(score, insertion_index)`,
lexicographically, as Python tuple comparison performs it (the node component
is only compared on full key ties, which never occur in a run). -/
def keyLT (a b : Entry) : Bool :=
  gsLT a.1 b.1 || (a.1 == b.1 && a.2.1 < b.2.1)

/-- Least entry of a nonempty queue (first occurrence wins on key ties),
matching the heap pop of `PriorityQueue.get`. -/
def minEntry : Entry → List Entry → Entry
  | m, [] => m
  | m, e :: es => minEntry (if keyLT e m then e else m) es

/-- The running state of `find_path`: the grid, the queue contents, the
`index` counter, the iteration count (for cancellation polling) and the ghost
log of all indices passed to `put`, in chronological order. -/
structure SState where
  s : GState
  queue : List Entry
  index : Nat
  t : Nat
  log : List Nat
deriving DecidableEq, Repr

/-- Terminal outcomes of the search loop. -/
inductive SResult where
  | pathFound
  | noPath
  | cancelled
deriving DecidableEq, Repr

/-- Outcome of one loop iteration: finished with a result and a final grid,
or a successor running state. -/
inductive StepOut where
  | done (r : SResult) (g : GState)
  | cont (σ : SState)
deriving DecidableEq, Repr

/-- Relaxation of one neighbour inside the loop body: skip obstacles, improve
strictly better g-scores, reparent, and enqueue (with the current `index`,
incremented after the `put`) when the neighbour is neither Open nor
Visited. -/
def relaxOne (alg : Alg) (cur : Nat × Nat)
    (acc : GState × List Entry × Nat × List Nat) (nb : Nat × Nat) :
    GState × List Entry × Nat × List Nat :=
  let (s, q, idx, lg) := acc
  if ¬ is_obstacle s nb then
    if gsLT (gsAdd1 (nodeAt s cur).g_score) (nodeAt s nb).g_score then
      let s' := updNode s nb (fun nd =>
        { nd with
          g_score := gsAdd1 (nodeAt s cur).g_score, parent_node := some cur })
      if ¬ is_active s' nb ∧ ¬ is_visited s' nb then
        let s'' := make_active s' nb
        (s'', q ++ [(score alg (nodeAt s'' nb), idx, nb)], idx + 1, lg ++ [idx])
      else (s', q, idx, lg)
    else (s, q, idx, lg)
  else (s, q, idx, lg)

/-- One iteration of the `find_path` loop: emptiness test, cancellation poll
(on cancellation: mode-1 reset and return without a result), dequeue of the
minimum entry, End test, visit marking, and relaxation of the step-1
neighbours. -/
def stepSearch (alg : Alg) (cancel : Nat → Bool) (σ : SState) : StepOut :=
  match σ.queue with
  | [] => StepOut.done SResult.noPath σ.s
  | e :: es =>
      if cancel σ.t then StepOut.done SResult.cancelled (reset_grid1! σ.s)
      else
        let m := minEntry e es
        let q' := σ.queue.erase m
        let cur := m.2.2
        if is_end σ.s cur then StepOut.done SResult.pathFound σ.s
        else
          let s1 := make_visited σ.s cur
          let r := (get_neighbours s1 cur 1).foldl (relaxOne alg cur) (s1, q', σ.index, σ.log)
          StepOut.cont
            { s := r.1, queue := r.2.1, index := r.2.2.1, t := σ.t + 1,
              log := r.2.2.2 }

/-- The combined result of the visit-and-relax phase of a loop iteration in
which `minEntry e es` was dequeued: the grid after `make_visited` and the
relaxations, the remaining queue with the new entries, the counter and the
log.  This is the tuple `stepSearch` packs into the successor state. -/
def relaxRes (alg : Alg) (σ : SState) (e : Entry) (es : List Entry) :
    GState × List Entry × Nat × List Nat :=
  (get_neighbours (make_visited σ.s (minEntry e es).2.2) (minEntry e es).2.2 1).foldl
    (relaxOne alg (minEntry e es).2.2)
    (make_visited σ.s (minEntry e es).2.2, σ.queue.erase (minEntry e es), σ.index, σ.log)

/-- The fuel-indexed search loop. -/
def searchLoop (alg : Alg) (cancel : Nat → Bool) : Nat → SState →
    Option (SResult × GState)
  | 0, _ => none
  | fuel + 1, σ =>
      match stepSearch alg cancel σ with
      | StepOut.done r g => some (r, g)
      | StepOut.cont σ' => searchLoop alg cancel fuel σ'

/-- Iterate `stepSearch` as long as the loop continues (`none` once it has
finished); used to reason about the reachable running states. -/
def stepsN (alg : Alg) (cancel : Nat → Bool) : Nat → SState → Option SState
  | 0, σ => some σ
  | k + 1, σ =>
      match stepSearch alg cancel σ with
      | StepOut.done _ _ => none
      | StepOut.cont σ' => stepsN alg cancel k σ'

/-- The initialisation of `find_path` (heuristics, cleared parents, Start
g-score zero, initial queue entry with index 0) given both designated
cells. -/
def initSearch (alg : Alg) (s0 : GState) (stp e : Nat × Nat) : SState :=
  let s1 := (allPositions s0).foldl
    (fun st p => updNode (update_h_score st e p) p (fun nd => { nd with parent_node := none })) s0
  let s2 := updNode s1 stp (fun nd => { nd with g_score := GScore.fin 0 })
  { s := s2, queue := [(score alg (nodeAt s2 stp), 0, stp)], index := 0,
    t := 0, log := [0] }

/-- `find_path` up to the moment the loop exits (the grid state returned for
`pathFound`/`noPath` is the one in which the result is announced, before the
trailing cleanup `reset_grid(1)`; for `cancelled` it is the state after the
in-loop mode-1 reset).  `none` when the fuel runs out; the function is never
entered without both Start and End set. -/
def find_path (alg : Alg) (cancel : Nat → Bool) (fuel : Nat) (s0 : GState) :
    Option (SResult × GState) :=
  match s0.START, s0.END with
  | some stp, some e => searchLoop alg cancel fuel (initSearch alg s0 stp e)
  | _, _ => none

/-! ### Path reconstructor -/

/-- The walking loop of `draw_path` with `n` iterations left standing at cell
`p`: prepend the cell, step to its parent.  A missing parent is only a crash
(`none`) when iterations remain after the step. -/
def buildPath (s : GState) : Nat → (Nat × Nat) → Option (List (Nat × Nat))
  | 0, _ => some []
  | 1, p => some [p]
  | n + 2, p =>
      match (nodeAt s p).parent_node with
      | none => none
      | some q => (buildPath s (n + 1) q).map (fun l => l ++ [p])

/-- The ordered cell sequence produced by `draw_path`: walk parent links from
End for `END.g_score` iterations, prepending each cell.  An infinite g-score
would crash `range` in Python (`none`); a crash while walking is also
`none`. -/
def draw_path (s : GState) : Option (List (Nat × Nat)) :=
  match s.END with
  | none => none
  | some e =>
      match (nodeAt s e).g_score with
      | GScore.inf => none
      | GScore.fin v => buildPath s v.toNat e

/-! ### Reachability and path predicates used by the claims -/

/-- Four-adjacency of grid cells. -/
def adjacent (p q : Nat × Nat) : Prop :=
  (p.1 = q.1 ∧ (p.2 = q.2 + 1 ∨ q.2 = p.2 + 1)) ∨
  (p.2 = q.2 ∧ (p.1 = q.1 + 1 ∨ q.1 = p.1 + 1))

instance (p q : Nat × Nat) : Decidable (adjacent p q) := by
  unfold adjacent; infer_instance

/-- The four coordinate candidates that can be 4-adjacent to a cell (with
truncated subtraction at the borders). -/
def adjCands (p : Nat × Nat) : List (Nat × Nat) :=
  [(p.1 + 1, p.2), (p.1, p.2 + 1), (p.1 - 1, p.2), (p.1, p.2 - 1)]

/-- Reachability from `src` through in-bounds non-Obstacle cells. -/
inductive ReachNO (s : GState) (src : Nat × Nat) : Nat × Nat → Prop where
  | base (h1 : inB s src) (h2 : is_obstacle s src = false) : ReachNO s src src
  | step {p q : Nat × Nat} (h : ReachNO s src p) (hadj : adjacent p q)
      (hq : inB s q) (hob : is_obstacle s q = false) : ReachNO s src q

/-- Reachability from the origin through in-bounds white (carved) cells,
the connectivity invariant of the maze loop. -/
inductive WReach (s : GState) : Nat × Nat → Prop where
  | base : WReach s (0, 0)
  | step {p q : Nat × Nat} (h : WReach s p) (hadj : adjacent p q)
      (hq : inB s q) (hw : (nodeAt s q).color = Col.white) : WReach s q

/-- Consecutive elements of a cell list are 4-adjacent. -/
def Contiguous : List (Nat × Nat) → Prop :=
  List.Chain' adjacent

/-- Iterated parent lookup (`n` hops from `p`). -/
def parentIter (s : GState) : Nat → (Nat × Nat) → Option (Nat × Nat)
  | 0, p => some p
  | n + 1, p =>
      match (nodeAt s p).parent_node with
      | none => none
      | some q => parentIter s n q

/-! ### Derived notions used in the claim statements -/

/-- The field effect of `Node.reset` on a cell. -/
def resetF (nd : Node) : Node :=
  { nd with
    color := Col.white, parent_node := none, g_score := GScore.inf,
    needs_refresh := true }

/-- The Manhattan distance computed by `update_h_score`, as a natural. -/
def manhattan (e p : Nat × Nat) : Nat :=
  ((e.1 : Int) - (p.1 : Int)).natAbs + ((e.2 : Int) - (p.2 : Int)).natAbs

/-- Number of obstacle cells; the maze-loop termination measure counts these. -/
def greyCount (s : GState) : Nat :=
  (allPositions s).countP (fun p => is_obstacle s p)

/-- Termination potential of the maze carving loop: each iteration strictly
decreases it. -/
def mazePot (s : GState) (active : List (Nat × Nat)) : Nat :=
  2 * greyCount s + active.length

/-- A grid ready for a fresh search: well-formed, Start and End designated in
bounds, distinct and not obstacles, and every g-score still at its
`__init__` value of infinity. -/
structure ValidInit (s0 : GState) (p0 p1 : Nat × Nat) : Prop where
  hwf : wf s0
  hst : s0.START = some p0
  hen : s0.END = some p1
  hin0 : inB s0 p0
  hin1 : inB s0 p1
  hne : p0 ≠ p1
  hginf : ∀ p, (nodeAt s0 p).g_score = GScore.inf
  hob0 : is_obstacle s0 p0 = false
  hob1 : is_obstacle s0 p1 = false

/-- The grid invariant of the running search loop: grid shape and designations
are stable, Start keeps g-score 0 and no parent, finite g-scores are
nonnegative and sit on non-obstacle cells, and every cell with a finite
g-score other than Start has an in-bounds adjacent parent of strictly smaller
finite g-score. -/
structure GInv (p0 p1 : Nat × Nat) (st : GState) : Prop where
  hwf : wf st
  hst : st.START = some p0
  hen : st.END = some p1
  hin0 : inB st p0
  hin1 : inB st p1
  hne : p0 ≠ p1
  hg0 : (nodeAt st p0).g_score = GScore.fin 0
  hpar0 : (nodeAt st p0).parent_node = none
  nonneg : ∀ p v, (nodeAt st p).g_score = GScore.fin v → 0 ≤ v
  noObst : ∀ p v, inB st p → (nodeAt st p).g_score = GScore.fin v →
    is_obstacle st p = false
  chain : ∀ p v, inB st p → (nodeAt st p).g_score = GScore.fin v → p ≠ p0 →
    ∃ q w, (nodeAt st p).parent_node = some q ∧ inB st q ∧ adjacent q p ∧
      (nodeAt st q).g_score = GScore.fin w ∧ w < v

/-- Every queued entry denotes an in-bounds cell of finite g-score. -/
def queueFin (st : GState) (q : List Entry) : Prop :=
  ∀ en ∈ q, inB st en.2.2 ∧ ∃ v, (nodeAt st en.2.2).g_score = GScore.fin v

/-- The search-loop invariant: the grid invariant plus the queue condition. -/
def SInv (p0 p1 : Nat × Nat) (σ : SState) : Prop :=
  GInv p0 p1 σ.s ∧ queueFin σ.s σ.queue

/-- The queue/index discipline of the search loop: before the first iteration
the queue holds exactly the Start entry (index 0, counter still 0); afterwards
the chronological log of assigned indices is `0` followed by
`0, 1, ..., index-1`, all queued indices are below the counter, and the queued
indices are pairwise distinct. -/
def QInv (e0 : Entry) (σ : SState) : Prop :=
  (σ.t = 0 ∧ σ.queue = [e0] ∧ σ.index = 0 ∧ σ.log = [0]) ∨
  (0 < σ.t ∧ σ.log = 0 :: List.range σ.index ∧
    (∀ en ∈ σ.queue, en.2.1 < σ.index) ∧
    (σ.queue.map (fun en => en.2.1)).Nodup)

/-- The invariant of the maze carving loop: no Start/End designated, every
cell white (carved) or grey (uncarved), the stack holds in-bounds carved
cells of even coordinates, the origin is carved, every carved cell is
connected to the origin through carved cells, and every carved even-even
cell is on the stack unless all its step-2 neighbours are already carved. -/
structure MInv (s : GState) (active : List (Nat × Nat)) : Prop where
  hwf : wf s
  hR : 1 ≤ s.ROWS
  hC : 1 ≤ s.COLUMNS
  hst : s.START = none
  hen : s.END = none
  colWG : ∀ p, inB s p → (nodeAt s p).color = Col.white ∨ (nodeAt s p).color = Col.grey
  stackIn : ∀ p ∈ active, inB s p ∧ Even p.1 ∧ Even p.2 ∧ (nodeAt s p).color = Col.white
  origin : (nodeAt s (0, 0)).color = Col.white
  conn : ∀ p, inB s p → (nodeAt s p).color = Col.white → WReach s p
  frontier : ∀ p, inB s p → Even p.1 → Even p.2 → (nodeAt s p).color = Col.white →
    p ∈ active ∨ ∀ q ∈ get_neighbours s p 2, (nodeAt s q).color = Col.white

/-! ### Concrete instances used by witnesses and counterexamples -/

/-- A 5-by-5 obstacle-free grid with Start at the origin and End at the
opposite corner. -/
def g55 : GState := make_end (make_start (create_nodes 5 5) (0, 0)) (4, 4)

/-- A 2-by-2 obstacle-free grid, Start at the origin, End at the opposite
corner. -/
def g22 : GState := make_end (make_start (create_nodes 2 2) (0, 0)) (1, 1)

/-- Obstacle layout of a 4-by-5 grid on which Greedy Best-First leaves a
parent chain from End that is shorter than the final g-score of End. -/
def obsts45 : List (Nat × Nat) := [(0, 1), (1, 3), (2, 3), (3, 0), (3, 1), (3, 3), (3, 4)]

/-- The 4-by-5 grid with that layout, Start `(1,0)`, End `(2,4)`. -/
def gGap : GState :=
  obsts45.foldl make_obstacle (make_end (make_start (create_nodes 4 5) (1, 0)) (2, 4))

/-- The final grid of the A* run on the 2-by-2 grid (the run ends in
PathFound). -/
def st22 : GState :=
  ((find_path Alg.astar (fun _ => false) 20 g22).getD (SResult.noPath, g22)).2

/-- The final grid of the Greedy run on the gapped 4-by-5 grid (the run ends
in PathFound). -/
def stGap : GState :=
  ((find_path Alg.greedy (fun _ => false) 200 gGap).getD (SResult.noPath, gGap)).2

/-- The maze generated on a fresh 4-by-5 grid when every random choice takes
the first unvisited neighbour. -/
def maze45 : GState := generate_maze (create_nodes 4 5) (fun _ => 0)

/-- The component of non-obstacle cells of `maze45` around the origin; the
End cell `(3,3)` is not in it, which refutes reachability. -/
def sep45 : List (Nat × Nat) :=
  [(0, 0), (0, 2), (0, 3), (0, 4), (1, 0), (1, 2), (1, 4), (2, 0), (2, 1), (2, 2), (2, 4)]

/-! ## Basic lemmas about the grid representation -/

theorem setNode_ROWS (s : GState) (p : Nat × Nat) (nd : Node) :
    (setNode s p nd).ROWS = s.ROWS := rfl

theorem setNode_COLUMNS (s : GState) (p : Nat × Nat) (nd : Node) :
    (setNode s p nd).COLUMNS = s.COLUMNS := rfl

theorem setNode_START (s : GState) (p : Nat × Nat) (nd : Node) :
    (setNode s p nd).START = s.START := rfl

theorem setNode_END (s : GState) (p : Nat × Nat) (nd : Node) :
    (setNode s p nd).END = s.END := rfl

theorem inB_setNode (s : GState) (p q : Nat × Nat) (nd : Node) :
    inB (setNode s p nd) q ↔ inB s q := Iff.rfl

theorem wf_setNode {s : GState} (hwf : wf s) (p : Nat × Nat) (nd : Node) :
    wf (setNode s p nd) := by
  obtain ⟨hlen, hrows⟩ := hwf
  constructor
  · simpa [setNode, List.length_set] using hlen
  · intro row hrow
    simp only [setNode] at hrow
    by_cases hp : p.1 < s.nodes.length
    · rcases List.mem_or_eq_of_mem_set hrow with h | h
      · exact hrows _ h
      · have hgd : s.nodes.getD p.1 [] = s.nodes[p.1] := by
          simp [List.getD, List.getElem?_eq_getElem hp]
        rw [h, List.length_set, hgd]
        exact hrows _ (List.getElem_mem hp)
    · rw [List.set_eq_of_length_le (by omega)] at hrow
      exact hrows _ hrow

theorem nodeAt_setNode_self {s : GState} (hwf : wf s) {p : Nat × Nat}
    (hp : inB s p) (nd : Node) : nodeAt (setNode s p nd) p = nd := by
  obtain ⟨hlen, hrows⟩ := hwf
  obtain ⟨h1, h2⟩ := hp
  have hp1 : p.1 < s.nodes.length := by omega
  have hrowlen : (s.nodes.getD p.1 []).length = s.COLUMNS := by
    have : s.nodes.getD p.1 [] = s.nodes[p.1] := by
      simp [List.getD, List.getElem?_eq_getElem hp1]
    rw [this]; exact hrows _ (List.getElem_mem hp1)
  simp only [nodeAt, setNode]
  have hout : (s.nodes.set p.1 ((s.nodes.getD p.1 []).set p.2 nd)).getD p.1 [] =
      (s.nodes.getD p.1 []).set p.2 nd := by
    simp [List.getD, List.getElem?_set_self hp1]
  rw [hout]
  simp only [List.getD] at hrowlen ⊢
  rw [List.get?_set_eq_of_lt _ (by omega)]
  simp

theorem nodeAt_setNode_ne (s : GState) {p q : Nat × Nat} (h : q ≠ p) (nd : Node) :
    nodeAt (setNode s p nd) q = nodeAt s q := by
  simp only [nodeAt, setNode]
  by_cases h1 : q.1 = p.1
  · have h2 : q.2 ≠ p.2 := by
      intro h2; exact h (Prod.ext h1 h2)
    have : (s.nodes.set p.1 ((s.nodes.getD p.1 []).set p.2 nd)).getD q.1 [] =
        (s.nodes.getD p.1 []).set p.2 nd ∨
        (s.nodes.set p.1 ((s.nodes.getD p.1 []).set p.2 nd)).getD q.1 [] =
        s.nodes.getD q.1 [] := by
      by_cases hp1 : p.1 < s.nodes.length
      · left; simp [List.getD, h1, List.getElem?_set_self hp1]
      · right; rw [List.set_eq_of_length_le (by omega)]
    rcases this with hrow | hrow
    · rw [hrow, h1]
      simp [List.getD, List.getElem?_set_ne (Ne.symm h2)]
    · rw [hrow]
  · have : (s.nodes.set p.1 ((s.nodes.getD p.1 []).set p.2 nd)).getD q.1 [] =
        s.nodes.getD q.1 [] := by
      simp [List.getD, List.getElem?_set_ne (Ne.symm h1)]
    rw [this]

theorem nodeAt_updNode_self {s : GState} (hwf : wf s) {p : Nat × Nat}
    (hp : inB s p) (f : Node → Node) :
    nodeAt (updNode s p f) p = f (nodeAt s p) :=
  nodeAt_setNode_self hwf hp _

theorem nodeAt_updNode_ne (s : GState) {p q : Nat × Nat} (h : q ≠ p)
    (f : Node → Node) : nodeAt (updNode s p f) q = nodeAt s q :=
  nodeAt_setNode_ne s h _

theorem wf_updNode {s : GState} (hwf : wf s) (p : Nat × Nat) (f : Node → Node) :
    wf (updNode s p f) := wf_setNode hwf p _

theorem updNode_ROWS (s : GState) (p : Nat × Nat) (f : Node → Node) :
    (updNode s p f).ROWS = s.ROWS := rfl

theorem updNode_COLUMNS (s : GState) (p : Nat × Nat) (f : Node → Node) :
    (updNode s p f).COLUMNS = s.COLUMNS := rfl

theorem updNode_START (s : GState) (p : Nat × Nat) (f : Node → Node) :
    (updNode s p f).START = s.START := rfl

theorem updNode_END (s : GState) (p : Nat × Nat) (f : Node → Node) :
    (updNode s p f).END = s.END := rfl

theorem mem_allPositions {s : GState} {q : Nat × Nat} :
    q ∈ allPositions s ↔ inB s q := by
  simp only [allPositions, List.mem_flatMap, List.mem_map, List.mem_range, inB]
  constructor
  · rintro ⟨r, hr, c, hc, rfl⟩; exact ⟨hr, hc⟩
  · rintro ⟨h1, h2⟩; exact ⟨q.1, h1, q.2, h2, rfl⟩

theorem allPositions_nodup (s : GState) : (allPositions s).Nodup := by
  rw [allPositions, List.nodup_flatMap]
  refine ⟨fun r _ => ?_, ?_⟩
  · exact ((List.nodup_range _).map fun a b h => by simpa using congrArg Prod.snd h)
  · refine (List.nodup_range _).imp ?_
    intro a b hne x hx hx'
    simp only [Function.onFun, List.mem_map, List.mem_range] at hx hx'
    obtain ⟨c, _, rfl⟩ := hx
    obtain ⟨c', _, h⟩ := hx'
    exact hne (by simpa using congrArg Prod.fst h.symm)

/-! ## Characterisation of cell-wise folds

The Python pattern `for row in nodes: for node in row: ...` becomes a fold of
a per-cell transformation over `allPositions`.  When the transformation
mutates only the visited cell (reading only that cell and the global
Start/End references, which it preserves), the fold acts pointwise. -/

/-- A per-cell state transformation that preserves the globals and dimensions,
rewrites the visited cell by `φ` (a function of the globals and the old cell
contents), and leaves every other cell unchanged. -/
structure Cellwise (F : GState → Nat × Nat → GState)
    (φ : Option (Nat × Nat) → Option (Nat × Nat) → (Nat × Nat) → Node → Node) : Prop where
  hG : ∀ s p, (F s p).ROWS = s.ROWS ∧ (F s p).COLUMNS = s.COLUMNS ∧
      (F s p).START = s.START ∧ (F s p).END = s.END
  hwf : ∀ s p, wf s → wf (F s p)
  hself : ∀ s p, wf s → inB s p → nodeAt (F s p) p = φ s.START s.END p (nodeAt s p)
  hother : ∀ s p q, q ≠ p → nodeAt (F s p) q = nodeAt s q

theorem cellwise_foldl {F φ} (hF : Cellwise F φ) (ps : List (Nat × Nat)) :
    ∀ (s : GState), wf s → (∀ p ∈ ps, inB s p) → ps.Nodup →
    wf (ps.foldl F s) ∧
    (ps.foldl F s).ROWS = s.ROWS ∧ (ps.foldl F s).COLUMNS = s.COLUMNS ∧
    (ps.foldl F s).START = s.START ∧ (ps.foldl F s).END = s.END ∧
    ∀ q, nodeAt (ps.foldl F s) q =
      (if q ∈ ps then φ s.START s.END q (nodeAt s q) else nodeAt s q) := by
  induction ps with
  | nil =>
      intro s hwf _ _
      exact ⟨hwf, rfl, rfl, rfl, rfl, fun q => by simp⟩
  | cons p ps ih =>
      intro s hwf hin hnd
      obtain ⟨hG1, hG2, hG3, hG4⟩ := hF.hG s p
      have hwf' : wf (F s p) := hF.hwf s p hwf
      have hin' : ∀ r ∈ ps, inB (F s p) r := by
        intro r hr
        have := hin r (List.mem_cons_of_mem _ hr)
        simp only [inB, hG1, hG2]
        exact this
      obtain ⟨w1, w2, w3, w4, w5, w6⟩ := ih (F s p) hwf' hin' (List.Nodup.of_cons hnd)
      refine ⟨w1, by rw [List.foldl_cons, w2, hG1], by rw [List.foldl_cons, w3, hG2],
        by rw [List.foldl_cons, w4, hG3], by rw [List.foldl_cons, w5, hG4], ?_⟩
      intro q
      rw [List.foldl_cons, w6 q]
      by_cases hq : q = p
      · subst hq
        have hqps : q ∉ ps := (List.nodup_cons.mp hnd).1
        rw [if_neg hqps, if_pos (List.mem_cons_self _ _)]
        exact hF.hself s q hwf (hin q (List.mem_cons_self _ _))
      · have hne : nodeAt (F s p) q = nodeAt s q := hF.hother s p q hq
        by_cases hqin : q ∈ ps
        · rw [if_pos hqin, if_pos (List.mem_cons_of_mem _ hqin), hG3, hG4, hne]
        · rw [if_neg hqin, hne, if_neg (by simp [List.mem_cons, hq, hqin])]

theorem is_start_iff {s : GState} {p : Nat × Nat} :
    is_start s p = true ↔ s.START = some p := by
  simp [is_start]

theorem is_end_iff {s : GState} {p : Nat × Nat} :
    is_end s p = true ↔ s.END = some p := by
  simp [is_end]

theorem is_obstacle_iff {s : GState} {p : Nat × Nat} :
    is_obstacle s p = true ↔ (nodeAt s p).color = Col.grey := by
  simp [is_obstacle]

theorem resetNode_of_not_designated {s : GState} {p : Nat × Nat}
    (h1 : s.START ≠ some p) (h2 : s.END ≠ some p) :
    resetNode s p = updNode s p resetF := by
  simp only [resetNode, is_start, is_end]
  rw [if_neg (by simpa using h1), if_neg (by simpa using h2)]
  rfl

theorem cellwise_resetSel :
    Cellwise resetSel (fun st en p nd =>
      if st ≠ some p ∧ en ≠ some p ∧ nd.color ≠ Col.grey then resetF nd else nd) := by
  constructor
  · intro s p
    by_cases hc : ¬ is_start s p ∧ ¬ is_end s p ∧ ¬ is_obstacle s p
    · rw [resetSel, if_pos hc,
        resetNode_of_not_designated (fun h => hc.1 (is_start_iff.mpr h))
          (fun h => hc.2.1 (is_end_iff.mpr h))]
      exact ⟨rfl, rfl, rfl, rfl⟩
    · rw [resetSel, if_neg hc]; exact ⟨rfl, rfl, rfl, rfl⟩
  · intro s p hwf
    by_cases hc : ¬ is_start s p ∧ ¬ is_end s p ∧ ¬ is_obstacle s p
    · rw [resetSel, if_pos hc,
        resetNode_of_not_designated (fun h => hc.1 (is_start_iff.mpr h))
          (fun h => hc.2.1 (is_end_iff.mpr h))]
      exact wf_updNode hwf _ _
    · rw [resetSel, if_neg hc]; exact hwf
  · intro s p hwf hp
    by_cases hc : ¬ is_start s p ∧ ¬ is_end s p ∧ ¬ is_obstacle s p
    · rw [resetSel, if_pos hc,
        resetNode_of_not_designated (fun h => hc.1 (is_start_iff.mpr h))
          (fun h => hc.2.1 (is_end_iff.mpr h)),
        nodeAt_updNode_self hwf hp]
      rw [if_pos]
      refine ⟨fun h => hc.1 (is_start_iff.mpr h), fun h => hc.2.1 (is_end_iff.mpr h),
        fun h => hc.2.2 (is_obstacle_iff.mpr h)⟩
    · rw [resetSel, if_neg hc]
      rw [if_neg]
      intro ⟨h1, h2, h3⟩
      exact hc ⟨fun h => h1 (is_start_iff.mp h), fun h => h2 (is_end_iff.mp h),
        fun h => h3 (is_obstacle_iff.mp h)⟩
  · intro s p q hq
    by_cases hc : ¬ is_start s p ∧ ¬ is_end s p ∧ ¬ is_obstacle s p
    · rw [resetSel, if_pos hc,
        resetNode_of_not_designated (fun h => hc.1 (is_start_iff.mpr h))
          (fun h => hc.2.1 (is_end_iff.mpr h)),
        nodeAt_updNode_ne _ hq]
    · rw [resetSel, if_neg hc]

theorem cellwise_make_obstacle :
    Cellwise make_obstacle (fun st en p nd =>
      if en ≠ some p ∧ st ≠ some p then
        { nd with color := Col.grey, needs_refresh := true } else nd) := by
  constructor
  · intro s p
    rw [make_obstacle]
    split <;> exact ⟨rfl, rfl, rfl, rfl⟩
  · intro s p hwf
    rw [make_obstacle]
    split
    · exact wf_updNode hwf _ _
    · exact hwf
  · intro s p hwf hp
    rw [make_obstacle]
    by_cases hc : ¬ is_end s p ∧ ¬ is_start s p
    · rw [if_pos hc, nodeAt_updNode_self hwf hp, if_pos]
      exact ⟨fun h => hc.1 (is_end_iff.mpr h), fun h => hc.2 (is_start_iff.mpr h)⟩
    · rw [if_neg hc, if_neg]
      intro ⟨h1, h2⟩
      exact hc ⟨fun h => h1 (is_end_iff.mp h), fun h => h2 (is_start_iff.mp h)⟩
  · intro s p q hq
    rw [make_obstacle]
    split
    · exact nodeAt_updNode_ne _ hq _
    · rfl

theorem cellwise_initH (e : Nat × Nat) :
    Cellwise
      (fun st p => updNode (update_h_score st e p) p (fun nd => { nd with parent_node := none }))
      (fun _ _ p nd =>
        { nd with h_score := (manhattan e p : Int), parent_node := none }) := by
  constructor
  · intro s p; exact ⟨rfl, rfl, rfl, rfl⟩
  · intro s p hwf
    exact wf_updNode (wf_updNode hwf _ _) _ _
  · intro s p hwf hp
    simp only [update_h_score]
    rw [nodeAt_updNode_self (wf_updNode hwf _ _) hp, nodeAt_updNode_self hwf hp]
    simp [manhattan]
  · intro s p q hq
    rw [nodeAt_updNode_ne _ hq, update_h_score, nodeAt_updNode_ne _ hq]

/-- `Node.reset` factored into its global adjustment and its cell write. -/
theorem resetNode_eq (s : GState) (p : Nat × Nat) :
    resetNode s p =
      updNode (if s.START = some p then { s with START := none }
        else if s.END = some p then { s with END := none } else s) p resetF := by
  simp only [resetNode, is_start, is_end]
  by_cases h1 : s.START = some p
  · rw [if_pos (by simpa using h1), if_pos h1]; rfl
  · rw [if_neg (by simpa using h1), if_neg h1]
    by_cases h2 : s.END = some p
    · rw [if_pos (by simpa using h2), if_pos h2]; rfl
    · rw [if_neg (by simpa using h2), if_neg h2]; rfl

theorem resetNode_ROWS (s : GState) (p : Nat × Nat) :
    (resetNode s p).ROWS = s.ROWS := by
  rw [resetNode_eq]; split <;> first | rfl | (split <;> rfl)

theorem resetNode_COLUMNS (s : GState) (p : Nat × Nat) :
    (resetNode s p).COLUMNS = s.COLUMNS := by
  rw [resetNode_eq]; split <;> first | rfl | (split <;> rfl)

theorem wf_resetNode {s : GState} (hwf : wf s) (p : Nat × Nat) :
    wf (resetNode s p) := by
  rw [resetNode_eq]
  split
  · exact wf_updNode hwf _ _
  · split
    · exact wf_updNode hwf _ _
    · exact wf_updNode hwf _ _

theorem resetNode_START_cases (s : GState) (p : Nat × Nat) :
    (resetNode s p).START = if s.START = some p then none else s.START := by
  rw [resetNode_eq]
  by_cases h1 : s.START = some p
  · rw [if_pos h1, if_pos h1]; rfl
  · rw [if_neg h1, if_neg h1]; split <;> rfl

theorem resetNode_END_cases (s : GState) (p : Nat × Nat) :
    (resetNode s p).END =
      if s.END = some p ∧ s.START ≠ some p then none else s.END := by
  rw [resetNode_eq]
  by_cases h1 : s.START = some p
  · rw [if_pos h1, if_neg (by intro h; exact h.2 h1)]; rfl
  · rw [if_neg h1]
    by_cases h2 : s.END = some p
    · rw [if_pos h2, if_pos ⟨h2, h1⟩]; rfl
    · rw [if_neg h2, if_neg (by intro h; exact h2 h.1)]; rfl

theorem nodeAt_resetNode_self {s : GState} (hwf : wf s) {p : Nat × Nat}
    (hp : inB s p) : nodeAt (resetNode s p) p = resetF (nodeAt s p) := by
  rw [resetNode_eq]
  split
  · exact nodeAt_updNode_self hwf hp _
  · split
    · exact nodeAt_updNode_self hwf hp _
    · exact nodeAt_updNode_self hwf hp _

theorem nodeAt_setNode_out {s : GState} (hwf : wf s) {p : Nat × Nat}
    (hp : ¬ inB s p) (nd : Node) : nodeAt (setNode s p nd) p = nodeAt s p := by
  obtain ⟨hlen, hrows⟩ := hwf
  simp only [nodeAt, setNode]
  rcases Nat.lt_or_ge p.1 s.nodes.length with h1 | h1
  · have hc : ¬ p.2 < s.COLUMNS := by
      intro hc; exact hp ⟨by omega, hc⟩
    have hrow : s.nodes.getD p.1 [] = s.nodes[p.1] := by
      simp [List.getD, List.getElem?_eq_getElem h1]
    have hrlen : (s.nodes.getD p.1 []).length = s.COLUMNS := by
      rw [hrow]; exact hrows _ (List.getElem_mem h1)
    have hset : (s.nodes.getD p.1 []).set p.2 nd = s.nodes.getD p.1 [] :=
      List.set_eq_of_length_le (by omega)
    rw [hset]
    have houter : (s.nodes.set p.1 (s.nodes.getD p.1 [])).getD p.1 [] =
        s.nodes.getD p.1 [] := by
      simp [List.getD, List.getElem?_set_self h1]
    rw [houter]
  · rw [List.set_eq_of_length_le (by omega)]

theorem nodeAt_updNode_out {s : GState} (hwf : wf s) {p : Nat × Nat}
    (hp : ¬ inB s p) (f : Node → Node) : nodeAt (updNode s p f) p = nodeAt s p :=
  nodeAt_setNode_out hwf hp _

theorem nodeAt_resetNode_ne (s : GState) {p q : Nat × Nat} (hq : q ≠ p) :
    nodeAt (resetNode s p) q = nodeAt s q := by
  rw [resetNode_eq]
  split
  · exact nodeAt_updNode_ne _ hq _
  · split
    · exact nodeAt_updNode_ne _ hq _
    · exact nodeAt_updNode_ne _ hq _

theorem nodeAt_resetNode_out {s : GState} (hwf : wf s) {p : Nat × Nat}
    (hp : ¬ inB s p) : nodeAt (resetNode s p) p = nodeAt s p := by
  rw [resetNode_eq]
  split
  · exact nodeAt_updNode_out hwf hp _
  · split
    · exact nodeAt_updNode_out hwf hp _
    · exact nodeAt_updNode_out hwf hp _

/-- The mode-0 fold only ever clears the Start reference. -/
theorem foldl_resetNode_START_or (ps : List (Nat × Nat)) :
    ∀ s : GState, (ps.foldl resetNode s).START = s.START ∨
      (ps.foldl resetNode s).START = none := by
  induction ps with
  | nil => intro s; exact Or.inl rfl
  | cons p ps ih =>
      intro s
      rw [List.foldl_cons]
      rcases ih (resetNode s p) with h | h
      · rw [h, resetNode_START_cases]
        split
        · exact Or.inr rfl
        · exact Or.inl rfl
      · exact Or.inr h

theorem foldl_resetNode_END_or (ps : List (Nat × Nat)) :
    ∀ s : GState, (ps.foldl resetNode s).END = s.END ∨
      (ps.foldl resetNode s).END = none := by
  induction ps with
  | nil => intro s; exact Or.inl rfl
  | cons p ps ih =>
      intro s
      rw [List.foldl_cons]
      rcases ih (resetNode s p) with h | h
      · rw [h, resetNode_END_cases]
        split
        · exact Or.inr rfl
        · exact Or.inl rfl
      · exact Or.inr h

/-- Passing the mode-0 fold over the Start cell clears the Start reference. -/
theorem foldl_resetNode_START_none (ps : List (Nat × Nat)) :
    ∀ (s : GState) (p : Nat × Nat), p ∈ ps → s.START = some p →
      (ps.foldl resetNode s).START = none := by
  induction ps with
  | nil => intro s p hp; exact absurd hp (List.not_mem_nil p)
  | cons q ps ih =>
      intro s p hp hst
      rw [List.foldl_cons]
      by_cases hqp : q = p
      · subst hqp
        have h1 : (resetNode s q).START = none := by
          rw [resetNode_START_cases, if_pos hst]
        rcases foldl_resetNode_START_or ps (resetNode s q) with h | h
        · rw [h, h1]
        · exact h
      · have h1 : (resetNode s q).START = some p := by
          rw [resetNode_START_cases]
          split
          · rename_i hcase
            exact absurd (hst.symm.trans hcase) (fun hh => hqp (Option.some_inj.mp hh).symm)
          · exact hst
        exact ih (resetNode s q) p (by
          rcases List.mem_cons.mp hp with h | h
          · exact absurd h.symm hqp
          · exact h) h1

/-- Passing the mode-0 fold over the End cell clears the End reference,
provided the Start reference does not denote the same cell. -/
theorem foldl_resetNode_END_none (ps : List (Nat × Nat)) :
    ∀ (s : GState) (p : Nat × Nat), p ∈ ps → s.END = some p → s.START ≠ s.END →
      (ps.foldl resetNode s).END = none := by
  induction ps with
  | nil => intro s p hp; exact absurd hp (List.not_mem_nil p)
  | cons q ps ih =>
      intro s p hp hen hne
      rw [List.foldl_cons]
      by_cases hqp : q = p
      · subst hqp
        have h1 : (resetNode s q).END = none := by
          rw [resetNode_END_cases, if_pos ⟨hen, fun hh => hne (hh.trans hen.symm)⟩]
        rcases foldl_resetNode_END_or ps (resetNode s q) with h | h
        · rw [h, h1]
        · exact h
      · have hmem : p ∈ ps := by
          rcases List.mem_cons.mp hp with h | h
          · exact absurd h.symm hqp
          · exact h
        have h1 : (resetNode s q).END = some p := by
          rw [resetNode_END_cases]
          split
          · rename_i hcase
            exact absurd (hen.symm.trans hcase.1) (fun hh => hqp (Option.some_inj.mp hh).symm)
          · exact hen
        refine ih (resetNode s q) p hmem h1 ?_
        rw [resetNode_START_cases, h1]
        split
        · exact Option.noConfusion
        · intro hh
          exact hne (hh.trans hen.symm)

/-- The mode-0 fold resets the fields of every visited in-range cell and
leaves every other cell unchanged. -/
theorem foldl_resetNode_nodeAt (ps : List (Nat × Nat)) :
    ∀ (s : GState), wf s → ps.Nodup → ∀ q,
      nodeAt (ps.foldl resetNode s) q =
        (if q ∈ ps ∧ inB s q then resetF (nodeAt s q) else nodeAt s q) := by
  induction ps with
  | nil => intro s _ _ q; simp
  | cons p ps ih =>
      intro s hwf hnd q
      rw [List.foldl_cons]
      have hdim1 : (resetNode s p).ROWS = s.ROWS := resetNode_ROWS s p
      have hdim2 : (resetNode s p).COLUMNS = s.COLUMNS := resetNode_COLUMNS s p
      have hinBiff : ∀ r, inB (resetNode s p) r ↔ inB s r := by
        intro r; rw [inB, inB, hdim1, hdim2]
      rw [ih (resetNode s p) (wf_resetNode hwf p) (List.Nodup.of_cons hnd) q]
      by_cases hq : q = p
      · subst hq
        have hqps : q ∉ ps := (List.nodup_cons.mp hnd).1
        rw [if_neg (by intro hh; exact hqps hh.1)]
        by_cases hin : inB s q
        · rw [nodeAt_resetNode_self hwf hin,
            if_pos ⟨List.mem_cons_self _ _, hin⟩]
        · rw [if_neg (by intro hh; exact hin hh.2)]
          exact nodeAt_resetNode_out hwf hin
      · rw [nodeAt_resetNode_ne s hq]
        have hcond : (q ∈ ps ∧ inB (resetNode s p) q) ↔ (q ∈ ps ∧ inB s q) :=
          and_congr_right (fun _ => hinBiff q)
        by_cases hqin : q ∈ ps ∧ inB s q
        · rw [if_pos (hcond.mpr hqin), if_pos ⟨List.mem_cons_of_mem _ hqin.1, hqin.2⟩]
        · rw [if_neg (fun hh => hqin (hcond.mp hh)), if_neg (by
            intro hh
            rcases List.mem_cons.mp hh.1 with h | h
            · exact hq h
            · exact hqin ⟨h, hh.2⟩)]

theorem nodeAt_eq_getElem {s : GState} (i j : Nat) (hi : i < s.nodes.length)
    (hj : j < s.nodes[i].length) : nodeAt s (i, j) = s.nodes[i][j] := by
  simp [nodeAt, List.getD, List.getElem?_eq_getElem, hi, hj]

/-- Two well-formed grids with equal dimensions, designations and cells are
equal. -/
theorem gstate_eq {s t : GState} (hR : s.ROWS = t.ROWS) (hC : s.COLUMNS = t.COLUMNS)
    (hS : s.START = t.START) (hE : s.END = t.END) (hwfs : wf s) (hwft : wf t)
    (hn : ∀ q, nodeAt s q = nodeAt t q) : s = t := by
  obtain ⟨hl1, hr1⟩ := hwfs
  obtain ⟨hl2, hr2⟩ := hwft
  have hlen : s.nodes.length = t.nodes.length := by omega
  have hnodes : s.nodes = t.nodes := by
    apply List.ext_getElem hlen
    intro i hi hi'
    have hrow1 : s.nodes[i].length = s.COLUMNS := hr1 _ (List.getElem_mem hi)
    have hrow2 : t.nodes[i].length = t.COLUMNS := hr2 _ (List.getElem_mem hi')
    apply List.ext_getElem (by omega)
    intro j hj hj'
    have e1 := nodeAt_eq_getElem i j hi hj
    have e2 := nodeAt_eq_getElem i j hi' hj'
    rw [← e1, ← e2]
    exact hn (i, j)
  cases s; cases t
  simp_all

/-- Mode-1 reset succeeds exactly when End is designated, and then acts by
resetting the non-designated non-obstacle cells and clearing the End cell's
g-score and parent. -/
theorem reset_grid1_char {s : GState} {e : Nat × Nat} (hwf : wf s)
    (he : s.END = some e) (hein : inB s e) :
    ∃ s', reset_grid s 1 = some s' ∧ wf s' ∧
      s'.ROWS = s.ROWS ∧ s'.COLUMNS = s.COLUMNS ∧
      s'.START = s.START ∧ s'.END = s.END ∧
      (∀ q, q ≠ e → nodeAt s' q =
        (if inB s q ∧ s.START ≠ some q ∧ s.END ≠ some q ∧ (nodeAt s q).color ≠ Col.grey
         then resetF (nodeAt s q) else nodeAt s q)) ∧
      nodeAt s' e = { nodeAt s e with g_score := GScore.inf, parent_node := none } := by
  have hin : ∀ p ∈ allPositions s, inB s p := fun p hp => mem_allPositions.mp hp
  obtain ⟨w1, w2, w3, w4, w5, w6⟩ :=
    cellwise_foldl cellwise_resetSel (allPositions s) s hwf hin (allPositions_nodup s)
  set s₁ := (allPositions s).foldl resetSel s with hs₁
  have hend1 : s₁.END = some e := by rw [w5, he]
  have hupd : reset_grid s 1 =
      some (updNode s₁ e (fun nd =>
        { nd with g_score := GScore.inf, parent_node := none })) := by
    rw [reset_grid]
    simp only [if_neg (by omega : ¬ (1 : Nat) = 0), if_pos rfl, ← hs₁, hend1]
    simp
  have hein1 : inB s₁ e := by
    rw [inB, w2, w3]; exact hein
  have hn1e : nodeAt s₁ e = nodeAt s e := by
    rw [w6 e]
    by_cases hmem : e ∈ allPositions s
    · rw [if_pos hmem, if_neg (by
        intro hh
        exact hh.2.1 he)]
    · rw [if_neg hmem]
  refine ⟨_, hupd, wf_updNode w1 _ _, w2, w3, by rw [updNode_START, w4],
    by rw [updNode_END, w5], ?_, ?_⟩
  · intro q hq
    rw [nodeAt_updNode_ne _ hq, w6 q]
    by_cases hmem : q ∈ allPositions s
    · rw [if_pos hmem]
      by_cases hc : s.START ≠ some q ∧ s.END ≠ some q ∧ (nodeAt s q).color ≠ Col.grey
      · rw [if_pos hc, if_pos ⟨mem_allPositions.mp hmem, hc⟩]
      · rw [if_neg hc, if_neg (by intro hh; exact hc hh.2)]
    · rw [if_neg hmem, if_neg (by
        intro hh
        exact hmem (mem_allPositions.mpr hh.1))]
  · rw [nodeAt_updNode_self w1 hein1, hn1e]

/-- Mode-1 reset with no End designated reaches the failing attribute access. -/
theorem reset_grid1_none {s : GState} (he : s.END = none) :
    reset_grid s 1 = none := by
  have hin : ∀ p ∈ allPositions s, inB s p := fun p hp => mem_allPositions.mp hp
  rw [reset_grid]
  simp only [if_neg (by omega : ¬ (1 : Nat) = 0), if_pos rfl]
  have : ((allPositions s).foldl resetSel s).END = none := by
    have hG : ∀ (t : GState) (p : Nat × Nat), (resetSel t p).END = t.END := by
      intro t p
      rw [resetSel]
      split
      · rename_i hc
        rw [resetNode_of_not_designated
          (fun h => hc.1 (is_start_iff.mpr h)) (fun h => hc.2.1 (is_end_iff.mpr h))]
        rfl
      · rfl
    have : ∀ (ps : List (Nat × Nat)) (t : GState), (ps.foldl resetSel t).END = t.END := by
      intro ps
      induction ps with
      | nil => intro t; rfl
      | cons p ps ih => intro t; rw [List.foldl_cons, ih, hG]
    rw [this, he]
  rw [this]
  simp

/-! ## Claim C10 -/

/-- C10: the mode-1 grid reset unconditionally accesses the End cell; with
End designated (in range) it succeeds and clears that cell's g-score and
parent, and with End unset its error branch (the raising attribute access,
modelled as `none`) is reached. -/
theorem C10_reset1_end_access (s : GState) (hwf : wf s) :
    (s.END = none → reset_grid s 1 = none) ∧
    (∀ e, s.END = some e → inB s e →
      ∃ s', reset_grid s 1 = some s' ∧
        (nodeAt s' e).g_score = GScore.inf ∧ (nodeAt s' e).parent_node = none) := by
  constructor
  · intro he; exact reset_grid1_none he
  · intro e he hein
    obtain ⟨s', h1, _, _, _, _, _, _, h8⟩ := reset_grid1_char hwf he hein
    exact ⟨s', h1, by rw [h8], by rw [h8]⟩

/-- Witness for C10 on a concrete grid. -/
theorem C10_witness :
    ((create_nodes 2 2).END = none → reset_grid (create_nodes 2 2) 1 = none) ∧
    (∀ e, (create_nodes 2 2).END = some e → inB (create_nodes 2 2) e →
      ∃ s', reset_grid (create_nodes 2 2) 1 = some s' ∧
        (nodeAt s' e).g_score = GScore.inf ∧ (nodeAt s' e).parent_node = none) :=
  C10_reset1_end_access (create_nodes 2 2) (by decide)

/-! ## Claim C6 -/

/-- C6: with Start and End designated (End in range), the mode-1 reset is
idempotent: applying it to its own result reproduces that result exactly. -/
theorem C6_reset1_idempotent (s : GState) (p0 e : Nat × Nat) (hwf : wf s)
    (hst : s.START = some p0) (hen : s.END = some e) (hein : inB s e) :
    ∃ s', reset_grid s 1 = some s' ∧ reset_grid s' 1 = some s' := by
  obtain ⟨s', h1, hwf', hR, hC, hS, hE, hne, he⟩ := reset_grid1_char hwf hen hein
  have hen' : s'.END = some e := by rw [hE, hen]
  have hein' : inB s' e := by rw [inB, hR, hC]; exact hein
  obtain ⟨s'', h2, hwf'', hR', hC', hS', hE', hne', he'⟩ :=
    reset_grid1_char hwf' hen' hein'
  refine ⟨s', h1, ?_⟩
  rw [h2]
  congr 1
  apply gstate_eq hR' hC' hS' hE' hwf'' hwf'
  intro q
  by_cases hq : q = e
  · subst hq
    rw [he', he]
  · have hinBq : inB s' q ↔ inB s q := by rw [inB, inB, hR, hC]
    by_cases hcond : inB s q ∧ s.START ≠ some q ∧ s.END ≠ some q ∧
        (nodeAt s q).color ≠ Col.grey
    · have hsq : nodeAt s' q = resetF (nodeAt s q) := by
        rw [hne q hq, if_pos hcond]
      rw [hne' q hq, hsq]
      rw [if_pos ⟨hinBq.mpr hcond.1, by rw [hS]; exact hcond.2.1,
        by rw [hE]; exact hcond.2.2.1, by simp [resetF]⟩]
      simp [resetF]
    · have hsq : nodeAt s' q = nodeAt s q := by
        rw [hne q hq, if_neg hcond]
      rw [hne' q hq, hsq]
      rw [if_neg (fun hh => hcond ⟨hinBq.mp hh.1, by rw [← hS]; exact hh.2.1,
        by rw [← hE]; exact hh.2.2.1, hh.2.2.2⟩)]

/-- Witness for C6 on a concrete grid. -/
theorem C6_witness :
    ∃ s', reset_grid g22 1 = some s' ∧ reset_grid s' 1 = some s' :=
  C6_reset1_idempotent g22 (0, 0) (1, 1) (by decide) (by decide) (by decide) (by decide)

/-! ## Claim C8 -/

/-- C8: for any step `n ≥ 1` from an in-range cell, `get_neighbours` returns
only in-range cells (no wraparound), each at Manhattan distance exactly `n`
from the cell along one axis, and returns at most four of them. -/
theorem C8_neighbours_safe (s : GState) (p : Nat × Nat) (n : Nat)
    (hn : 1 ≤ n) (hp : inB s p) :
    (∀ q ∈ get_neighbours s p n, inB s q ∧
      ((q.1 = p.1 ∧ Nat.dist p.2 q.2 = n) ∨ (q.2 = p.2 ∧ Nat.dist p.1 q.1 = n))) ∧
    (get_neighbours s p n).length ≤ 4 := by
  obtain ⟨hp1, hp2⟩ := hp
  constructor
  · intro q hq
    have hsplit : ∀ (c : Prop) (inst : Decidable c) (x : Nat × Nat),
        q ∈ (if c then [x] else ([] : List (Nat × Nat))) → c ∧ q = x := by
      intro c inst x h
      split at h
      · simp only [List.mem_singleton] at h
        exact ⟨by assumption, h⟩
      · simp at h
    simp only [get_neighbours, List.mem_append] at hq
    rcases hq with ((h | h) | h) | h
    · obtain ⟨hb, rfl⟩ := hsplit _ _ _ h
      exact ⟨⟨by omega, hp2⟩, Or.inr ⟨rfl, by simp only [Nat.dist]; omega⟩⟩
    · obtain ⟨hb, rfl⟩ := hsplit _ _ _ h
      exact ⟨⟨hp1, by omega⟩, Or.inl ⟨rfl, by simp only [Nat.dist]; omega⟩⟩
    · obtain ⟨hb, rfl⟩ := hsplit _ _ _ h
      exact ⟨⟨by omega, hp2⟩, Or.inr ⟨rfl, by simp only [Nat.dist]; omega⟩⟩
    · obtain ⟨hb, rfl⟩ := hsplit _ _ _ h
      exact ⟨⟨hp1, by omega⟩, Or.inl ⟨rfl, by simp only [Nat.dist]; omega⟩⟩
  · simp only [get_neighbours, List.length_append]
    split <;> split <;> split <;> split <;> simp

/-- Witness for C8. -/
theorem C8_witness :
    (∀ q ∈ get_neighbours g55 (2, 2) 1, inB g55 q ∧
      ((q.1 = 2 ∧ Nat.dist 2 q.2 = 1) ∨ (q.2 = 2 ∧ Nat.dist 2 q.1 = 1))) ∧
    (get_neighbours g55 (2, 2) 1).length ≤ 4 :=
  C8_neighbours_safe g55 (2, 2) 1 (by decide) (by decide)

/-! ## Claim C9 -/

theorem h_score_resetF (nd : Node) : (resetF nd).h_score = nd.h_score := rfl

theorem h_score_updNode {s : GState} (hwf : wf s) (p : Nat × Nat)
    (f : Node → Node) (hf : ∀ nd, (f nd).h_score = nd.h_score) (q : Nat × Nat) :
    (nodeAt (updNode s p f) q).h_score = (nodeAt s q).h_score := by
  by_cases hq : q = p
  · subst hq
    by_cases hin : inB s q
    · rw [nodeAt_updNode_self hwf hin, hf]
    · rw [nodeAt_updNode_out hwf hin]
  · rw [nodeAt_updNode_ne _ hq]

/-- C9: neither the per-cell reset nor a mode-0 or mode-1 grid reset changes
any cell's `h_score`; the initialisation of a search sets every in-range
cell's `h_score` to the Manhattan distance to the End cell. -/
theorem C9_h_frame (s : GState) (hwf : wf s) :
    (∀ p q, (nodeAt (resetNode s p) q).h_score = (nodeAt s q).h_score) ∧
    (∀ s', reset_grid s 0 = some s' →
      ∀ q, (nodeAt s' q).h_score = (nodeAt s q).h_score) ∧
    (∀ s', reset_grid s 1 = some s' →
      ∀ q, (nodeAt s' q).h_score = (nodeAt s q).h_score) ∧
    (∀ alg stp e p, inB s p →
      (nodeAt (initSearch alg s stp e).s p).h_score = (manhattan e p : Int)) := by
  have hin : ∀ p ∈ allPositions s, inB s p := fun p hp => mem_allPositions.mp hp
  refine ⟨?_, ?_, ?_, ?_⟩
  · intro p q
    by_cases hq : q = p
    · subst hq
      by_cases hb : inB s q
      · rw [nodeAt_resetNode_self hwf hb, h_score_resetF]
      · rw [nodeAt_resetNode_out hwf hb]
    · rw [nodeAt_resetNode_ne _ hq]
  · intro s' h1 q
    have h2 : s' = (allPositions s).foldl resetNode s := by
      rw [reset_grid, if_pos rfl] at h1
      exact (Option.some_inj.mp h1).symm
    subst h2
    rw [foldl_resetNode_nodeAt (allPositions s) s hwf (allPositions_nodup s) q]
    split
    · rw [h_score_resetF]
    · rfl
  · intro s' h1 q
    rw [reset_grid, if_neg (by omega : ¬ (1 : Nat) = 0), if_pos rfl] at h1
    obtain ⟨w1, w2, w3, w4, w5, w6⟩ :=
      cellwise_foldl cellwise_resetSel (allPositions s) s hwf hin (allPositions_nodup s)
    set s₁ := (allPositions s).foldl resetSel s with hs₁
    have hfold : ∀ r, (nodeAt s₁ r).h_score = (nodeAt s r).h_score := by
      intro r
      rw [w6 r]
      split
      · split
        · rw [h_score_resetF]
        · rfl
      · rfl
    cases hE : s₁.END with
    | none => simp [hE] at h1
    | some e =>
        simp only [hE, Option.some_inj] at h1
        subst h1
        rw [h_score_updNode w1 e
          (fun nd => { nd with g_score := GScore.inf, parent_node := none })
          (fun nd => rfl) q, hfold q]
  · intro alg stp e p hp
    obtain ⟨w1, w2, w3, w4, w5, w6⟩ :=
      cellwise_foldl (cellwise_initH e) (allPositions s) s hwf hin (allPositions_nodup s)
    simp only [initSearch]
    rw [h_score_updNode w1 stp
      (fun nd => { nd with g_score := GScore.fin 0 }) (fun nd => rfl) p, w6 p,
      if_pos (mem_allPositions.mpr hp)]

/-- Witness for C9. -/
theorem C9_witness :
    (∀ p q, (nodeAt (resetNode g55 p) q).h_score = (nodeAt g55 q).h_score) ∧
    (∀ s', reset_grid g55 0 = some s' →
      ∀ q, (nodeAt s' q).h_score = (nodeAt g55 q).h_score) ∧
    (∀ s', reset_grid g55 1 = some s' →
      ∀ q, (nodeAt s' q).h_score = (nodeAt g55 q).h_score) ∧
    (∀ alg stp e p, inB g55 p →
      (nodeAt (initSearch alg g55 stp e).s p).h_score = (manhattan e p : Int)) :=
  C9_h_frame g55 (by decide)

/-! ## Claim C7 -/

/-- A loop iteration yields `cancelled` exactly from the cancellation poll:
the queue was nonempty, the poll fired, and the returned grid is the mode-1
reset of the grid at that moment. -/
theorem stepSearch_cancelled {alg : Alg} {cancel : Nat → Bool} {σ : SState}
    {g : GState} (h : stepSearch alg cancel σ = StepOut.done SResult.cancelled g) :
    cancel σ.t = true ∧ g = reset_grid1! σ.s ∧ σ.queue ≠ [] := by
  cases hq : σ.queue with
  | nil =>
      simp only [stepSearch, hq] at h
      simp at h
  | cons e es =>
      simp only [stepSearch, hq] at h
      by_cases hc : cancel σ.t
      · rw [if_pos hc] at h
        simp only [StepOut.done.injEq, true_and] at h
        exact ⟨hc, h.symm, by simp⟩
      · rw [if_neg hc] at h
        by_cases hend : is_end σ.s (minEntry e es).2.2
        · simp only [hend, if_pos] at h
          simp at h
        · simp only [hend] at h
          simp at h

/-- C7, loop part: whenever the search loop returns `cancelled`, there is a
reachable running state at which the poll fired, and the returned grid is the
mode-1 reset applied at exactly that moment. -/
theorem searchLoop_cancelled {alg : Alg} {cancel : Nat → Bool} :
    ∀ (fuel : Nat) (σ : SState) (g : GState),
      searchLoop alg cancel fuel σ = some (SResult.cancelled, g) →
      ∃ k σk, stepsN alg cancel k σ = some σk ∧ cancel σk.t = true ∧
        g = reset_grid1! σk.s := by
  intro fuel
  induction fuel with
  | zero => intro σ g h; rw [searchLoop] at h; exact absurd h (by simp)
  | succ fuel ih =>
      intro σ g h
      rw [searchLoop] at h
      cases hstep : stepSearch alg cancel σ with
      | done r g' =>
          rw [hstep] at h
          simp only [Option.some_inj, Prod.mk.injEq] at h
          obtain ⟨hr, hg⟩ := h
          subst hr; subst hg
          obtain ⟨h1, h2, _⟩ := stepSearch_cancelled hstep
          exact ⟨0, σ, rfl, h1, h2⟩
      | cont σ' =>
          rw [hstep] at h
          obtain ⟨k, σk, hk, hc, hg⟩ := ih σ' g h
          refine ⟨k + 1, σk, ?_, hc, hg⟩
          rw [stepsN, hstep]
          exact hk

/-- C7: the cancellation contract.  While the loop is running (queue
nonempty) and the poll fires, the very same iteration returns `cancelled`
with the grid equal to an explicit mode-1 reset of the grid at the moment of
cancellation; and every cancelled run's final grid arises that way from some
reachable running state. -/
theorem C7_cancellation (alg : Alg) (cancel : Nat → Bool) :
    (∀ (σ : SState) (e : Nat × Nat), σ.queue ≠ [] → cancel σ.t = true →
      wf σ.s → σ.s.END = some e → inB σ.s e →
      ∃ s', stepSearch alg cancel σ = StepOut.done SResult.cancelled s' ∧
        reset_grid σ.s 1 = some s') ∧
    (∀ (fuel : Nat) (σ : SState) (g : GState),
      searchLoop alg cancel fuel σ = some (SResult.cancelled, g) →
      ∃ k σk, stepsN alg cancel k σ = some σk ∧ cancel σk.t = true ∧
        g = reset_grid1! σk.s) := by
  constructor
  · intro σ e hq hc hwf hen hein
    obtain ⟨s', h1, _⟩ := reset_grid1_char hwf hen hein
    refine ⟨s', ?_, h1⟩
    cases hqe : σ.queue with
    | nil => exact absurd hqe hq
    | cons x xs =>
        simp only [stepSearch, hqe, hc, if_true]
        rw [reset_grid1!, h1]
        rfl
  · exact fun fuel => searchLoop_cancelled fuel

/-- Witness for C7: a concrete run with the cancel signal raised at the third
iteration, checked against both parts of the contract. -/
theorem C7_witness :
    (∃ s', stepSearch Alg.astar (fun t => t == 2)
        { s := g55, queue := [(GScore.fin 8, 0, ((0 : Nat), (0 : Nat)))], index := 0,
          t := 2, log := [0] } =
        StepOut.done SResult.cancelled s' ∧ reset_grid g55 1 = some s') := by
  refine (C7_cancellation Alg.astar (fun t => t == 2)).1
    { s := g55, queue := [(GScore.fin 8, 0, ((0 : Nat), (0 : Nat)))], index := 0,
      t := 2, log := [0] } (4, 4) (by decide) (by decide) (by decide) (by decide) (by decide)

/-! ## Queue-order lemmas (for C2 and the dequeue discipline) -/

theorem gsLT_irrefl (a : GScore) : gsLT a a = false := by
  cases a <;> simp [gsLT]

theorem keyLT_irrefl (a : Entry) : keyLT a a = false := by
  simp [keyLT, gsLT_irrefl]

theorem gsLT_trans_of_not {x e c : GScore} (h1 : gsLT x c = true)
    (h2 : gsLT x e = false) : gsLT e c = true := by
  cases x <;> cases e <;> cases c <;> simp_all [gsLT] <;> omega

theorem gsLT_asymm {x e : GScore} (h : gsLT x e = true) : gsLT e x = false := by
  cases x <;> cases e <;> simp_all [gsLT] <;> omega

/-- If `x` is below `c` but not below `e`, then `e` is below `c` (totality of
the lexicographic key order). -/
theorem keyLT_shift {x e c : Entry} (h1 : keyLT x c = true)
    (h2 : keyLT x e = false) : keyLT e c = true := by
  simp only [keyLT, Bool.or_eq_true, Bool.and_eq_true, beq_iff_eq,
    decide_eq_true_eq, Bool.or_eq_false_iff, Bool.and_eq_false_iff,
    decide_eq_false_iff_not] at h1 h2 ⊢
  cases hx : x.1 <;> cases he : e.1 <;> cases hc : c.1 <;>
    simp_all [gsLT] <;> omega

theorem keyLT_trans {x e c : Entry} (h1 : keyLT x e = true)
    (h2 : keyLT e c = true) : keyLT x c = true := by
  simp only [keyLT, Bool.or_eq_true, Bool.and_eq_true, beq_iff_eq,
    decide_eq_true_eq] at h1 h2 ⊢
  cases hx : x.1 <;> cases he : e.1 <;> cases hc : c.1 <;>
    simp_all [gsLT] <;> omega

/-- The selected entry is one of the queue entries. -/
theorem minEntry_mem : ∀ (e : Entry) (es : List Entry), minEntry e es ∈ e :: es := by
  intro e es
  induction es generalizing e with
  | nil => simp [minEntry]
  | cons x xs ih =>
      rw [minEntry]
      have h := ih (if keyLT x e then x else e)
      rcases List.mem_cons.mp h with h1 | h1
      · rw [h1]
        by_cases hc : keyLT x e = true
        · rw [if_pos hc]; simp
        · rw [if_neg hc]; simp
      · simp [h1]

/-- No queue entry is strictly below the selected entry. -/
theorem minEntry_least : ∀ (e : Entry) (es : List Entry),
    ∀ x ∈ e :: es, keyLT x (minEntry e es) = false := by
  intro e es
  induction es generalizing e with
  | nil =>
      intro x hx
      simp only [List.mem_singleton] at hx
      subst hx
      simp [minEntry, keyLT_irrefl]
  | cons y ys ih =>
      intro x hx
      rw [minEntry]
      have ihb := ih (if keyLT y e then y else e)
      rcases List.mem_cons.mp hx with rfl | hx'
      · by_cases hc : keyLT y x = true
        · rw [if_pos hc] at ihb ⊢
          by_contra hcon
          simp only [Bool.not_eq_false] at hcon
          have h1 := keyLT_trans hc hcon
          have h2 := ihb y (List.mem_cons_self _ _)
          simp [h1] at h2
        · rw [if_neg hc] at ihb ⊢
          exact ihb x (List.mem_cons_self _ _)
      · rcases List.mem_cons.mp hx' with rfl | hx''
        · by_cases hc : keyLT x e = true
          · rw [if_pos hc] at ihb ⊢
            exact ihb x (List.mem_cons_self _ _)
          · rw [if_neg hc] at ihb ⊢
            by_contra hcon
            simp only [Bool.not_eq_false] at hcon
            have h1 := keyLT_shift hcon (by simpa using hc)
            have h2 := ihb e (List.mem_cons_self _ _)
            simp [h1] at h2
        · by_cases hc : keyLT y e = true
          · rw [if_pos hc] at ihb ⊢
            exact ihb x (List.mem_cons_of_mem _ hx'')
          · rw [if_neg hc] at ihb ⊢
            exact ihb x (List.mem_cons_of_mem _ hx'')

/-! ## Claim C2 -/

/-- One relaxation either leaves queue, counter and log unchanged or appends
a single entry carrying the current counter value, increments the counter,
and logs that value. -/
theorem relaxOne_queue (alg : Alg) (cur : Nat × Nat) (s : GState)
    (q : List Entry) (idx : Nat) (lg : List Nat) (nb : Nat × Nat) :
    ((relaxOne alg cur (s, q, idx, lg) nb).2.1 = q ∧
     (relaxOne alg cur (s, q, idx, lg) nb).2.2.1 = idx ∧
     (relaxOne alg cur (s, q, idx, lg) nb).2.2.2 = lg) ∨
    (∃ en : Entry, en.2.1 = idx ∧
      (relaxOne alg cur (s, q, idx, lg) nb).2.1 = q ++ [en] ∧
      (relaxOne alg cur (s, q, idx, lg) nb).2.2.1 = idx + 1 ∧
      (relaxOne alg cur (s, q, idx, lg) nb).2.2.2 = lg ++ [idx]) := by
  simp only [relaxOne]
  split_ifs with h1 h2 h3 <;>
    first
      | exact Or.inl ⟨rfl, rfl, rfl⟩
      | exact Or.inr ⟨_, rfl, rfl, rfl, rfl⟩

/-- The relaxation fold appends a block of entries whose insertion indices
are exactly the consecutive counter values, increments the counter by the
block size, and logs those values in order. -/
theorem relaxFold_queue (alg : Alg) (cur : Nat × Nat) (nbs : List (Nat × Nat)) :
    ∀ (s : GState) (q : List Entry) (idx : Nat) (lg : List Nat),
    ∃ new : List Entry,
      (nbs.foldl (relaxOne alg cur) (s, q, idx, lg)).2.1 = q ++ new ∧
      (nbs.foldl (relaxOne alg cur) (s, q, idx, lg)).2.2.1 = idx + new.length ∧
      (nbs.foldl (relaxOne alg cur) (s, q, idx, lg)).2.2.2 =
        lg ++ List.range' idx new.length ∧
      new.map (fun en => en.2.1) = List.range' idx new.length := by
  induction nbs with
  | nil =>
      intro s q idx lg
      exact ⟨[], by simp, by simp, by simp, by simp⟩
  | cons nb nbs ih =>
      intro s q idx lg
      rw [List.foldl_cons]
      obtain ⟨new, w1, w2, w3, w4⟩ :=
        ih (relaxOne alg cur (s, q, idx, lg) nb).1
          (relaxOne alg cur (s, q, idx, lg) nb).2.1
          (relaxOne alg cur (s, q, idx, lg) nb).2.2.1
          (relaxOne alg cur (s, q, idx, lg) nb).2.2.2
      have heta : ((relaxOne alg cur (s, q, idx, lg) nb).1,
          (relaxOne alg cur (s, q, idx, lg) nb).2.1,
          (relaxOne alg cur (s, q, idx, lg) nb).2.2.1,
          (relaxOne alg cur (s, q, idx, lg) nb).2.2.2) =
          relaxOne alg cur (s, q, idx, lg) nb := rfl
      rw [heta] at w1 w2 w3
      rcases relaxOne_queue alg cur s q idx lg nb with ⟨h1, h2, h3⟩ |
        ⟨en, he, h1, h2, h3⟩
      · rw [h2] at w4
        refine ⟨new, ?_, ?_, ?_, w4⟩
        · rw [w1, h1]
        · rw [w2, h2]
        · rw [w3, h3, h2]
      · rw [h2] at w4
        refine ⟨en :: new, ?_, ?_, ?_, ?_⟩
        · rw [w1, h1, List.append_assoc]
          rfl
        · rw [w2, h2, List.length_cons]
          omega
        · rw [w3, h3, h2, List.length_cons, List.range'_succ, List.append_assoc]
          rfl
        · rw [List.map_cons, w4, he, List.length_cons, List.range'_succ]

/-- Anatomy of a continuing loop iteration: a nonempty queue, no cancel, the
dequeued minimum is not End, and the successor state is the visit-and-relax
result with the iteration counter advanced. -/
theorem stepSearch_cont_eq {alg : Alg} {cancel : Nat → Bool} {σ σ' : SState}
    (h : stepSearch alg cancel σ = StepOut.cont σ') :
    ∃ e es, σ.queue = e :: es ∧ cancel σ.t = false ∧
      is_end σ.s (minEntry e es).2.2 = false ∧
      σ' = { s := (relaxRes alg σ e es).1, queue := (relaxRes alg σ e es).2.1,
             index := (relaxRes alg σ e es).2.2.1, t := σ.t + 1,
             log := (relaxRes alg σ e es).2.2.2 } := by
  cases hq : σ.queue with
  | nil =>
      simp only [stepSearch, hq] at h
      exact absurd h (by simp)
  | cons e es =>
      simp only [stepSearch, hq] at h
      by_cases hc : cancel σ.t
      · rw [if_pos hc] at h
        exact absurd h (by simp)
      · rw [if_neg hc] at h
        by_cases hend : is_end σ.s (minEntry e es).2.2
        · rw [if_pos hend] at h
          exact absurd h (by simp)
        · rw [if_neg hend] at h
          simp only [StepOut.cont.injEq] at h
          refine ⟨e, es, rfl, by simp [hc], by simp [hend], ?_⟩
          rw [← h]
          simp only [relaxRes, hq]

/-- The queue/index discipline is preserved by every continuing iteration. -/
theorem stepSearch_QInv {alg : Alg} {cancel : Nat → Bool} {σ σ' : SState}
    {e0 : Entry} (h0 : e0.2.1 = 0)
    (h : stepSearch alg cancel σ = StepOut.cont σ') (hq : QInv e0 σ) :
    QInv e0 σ' := by
  obtain ⟨e, es, hqe, hc, hend, hσ'⟩ := stepSearch_cont_eq h
  obtain ⟨new, w1, w2, w3, w4⟩ := relaxFold_queue alg (minEntry e es).2.2
    (get_neighbours (make_visited σ.s (minEntry e es).2.2) (minEntry e es).2.2 1)
    (make_visited σ.s (minEntry e es).2.2) (σ.queue.erase (minEntry e es)) σ.index σ.log
  have hR1 : (relaxRes alg σ e es).2.1 = σ.queue.erase (minEntry e es) ++ new := w1
  have hR2 : (relaxRes alg σ e es).2.2.1 = σ.index + new.length := w2
  have hR3 : (relaxRes alg σ e es).2.2.2 = σ.log ++ List.range' σ.index new.length := w3
  rcases hq with ⟨ht, hque, hidx, hlog⟩ | ⟨ht, hlog, hlt, hnd⟩
  · -- before the first iteration: the queue held exactly the Start entry
    have hmin : minEntry e es = e0 := by
      rw [hque] at hqe
      cases hqe
      rfl
    have herase : σ.queue.erase (minEntry e es) = [] := by
      rw [hque, hmin]
      simp
    right
    rw [hσ']
    dsimp only
    refine ⟨by omega, ?_, ?_, ?_⟩
    · rw [hR3, hR2, hlog, hidx, List.range_eq_range', Nat.zero_add]
      rfl
    · intro en hen
      rw [hR1, herase, List.nil_append] at hen
      rw [hR2, hidx]
      have hmem : en.2.1 ∈ new.map (fun en => en.2.1) := List.mem_map_of_mem _ hen
      rw [w4, hidx] at hmem
      have := List.mem_range'_1.mp hmem
      omega
    · rw [hR1, herase, List.nil_append, w4, hidx]
      exact List.nodup_range' _ _
  · -- later iterations
    right
    rw [hσ']
    dsimp only
    have hsub : ((σ.queue.erase (minEntry e es)).map (fun en => en.2.1)).Sublist
        (σ.queue.map (fun en => en.2.1)) :=
      (List.erase_sublist _ _).map _
    refine ⟨by omega, ?_, ?_, ?_⟩
    · rw [hR3, hR2, hlog, List.cons_append]
      congr 1
      rw [List.range_eq_range', List.range_eq_range']
      have hap := List.range'_append 0 σ.index new.length 1
      simp only [Nat.zero_add, Nat.one_mul] at hap
      rw [hap, Nat.add_comm new.length σ.index]
    · intro en hen
      rw [hR1] at hen
      rw [hR2]
      rcases List.mem_append.mp hen with h' | h'
      · have := hlt en (List.mem_of_mem_erase h')
        omega
      · have hmem : en.2.1 ∈ new.map (fun en => en.2.1) := List.mem_map_of_mem _ h'
        rw [w4] at hmem
        have := List.mem_range'_1.mp hmem
        omega
    · rw [hR1, List.map_append]
      rw [List.nodup_append]
      refine ⟨hnd.sublist hsub, by rw [w4]; exact List.nodup_range' _ _, ?_⟩
      intro a ha hanew
      have ha' : a < σ.index := by
        simp only [List.mem_map] at ha
        obtain ⟨en, hen, rfl⟩ := ha
        exact hlt en (List.mem_of_mem_erase hen)
      rw [w4] at hanew
      have := List.mem_range'_1.mp hanew
      omega

/-- C2 (amended): in every run, the Start entry is inserted with index 0 and
the loop insertions receive the consecutive indices `0, 1, 2, ...` — each
loop insertion's index strictly greater than every index assigned earlier in
the loop (the first one repeats the Start entry's index 0, but the Start
entry has been dequeued by then); consequently the indices of the entries
simultaneously in the queue are pairwise distinct, and the dequeued entry is
always a minimal `(score, index)` entry, so equal-score entries leave in
insertion order. -/
theorem C2_amended_insertion_indices (alg : Alg) (cancel : Nat → Bool)
    (s0 : GState) (stp e : Nat × Nat) :
    (∀ k σk, stepsN alg cancel k (initSearch alg s0 stp e) = some σk →
      σk.log = 0 :: List.range σk.index ∧
      List.Sorted (· < ·) σk.log.tail ∧
      (σk.queue.map (fun en => en.2.1)).Nodup) ∧
    (∀ (x : Entry) (xs : List Entry), minEntry x xs ∈ x :: xs ∧
      ∀ y ∈ x :: xs, keyLT y (minEntry x xs) = false) := by
  constructor
  · have main : ∀ k σ σk, QInv (score alg (nodeAt (initSearch alg s0 stp e).s stp),
        (0 : Nat), stp) σ →
        stepsN alg cancel k σ = some σk →
        QInv (score alg (nodeAt (initSearch alg s0 stp e).s stp), (0 : Nat), stp) σk := by
      intro k
      induction k with
      | zero =>
          intro σ σk hq hs
          rw [stepsN] at hs
          simp only [Option.some_inj] at hs
          rw [← hs]
          exact hq
      | succ k ih =>
          intro σ σk hq hs
          rw [stepsN] at hs
          cases hstep : stepSearch alg cancel σ with
          | done r g => rw [hstep] at hs; exact absurd hs (by simp)
          | cont σ' =>
              rw [hstep] at hs
              exact ih σ' σk (stepSearch_QInv rfl hstep hq) hs
    intro k σk hs
    have hq0 : QInv (score alg (nodeAt (initSearch alg s0 stp e).s stp),
        (0 : Nat), stp) (initSearch alg s0 stp e) := by
      left
      exact ⟨rfl, rfl, rfl, rfl⟩
    have hq := main k _ σk hq0 hs
    rcases hq with ⟨_, hque, hidx, hlog⟩ | ⟨_, hlog, hlt, hnd⟩
    · refine ⟨by rw [hlog, hidx]; rfl, by rw [hlog]; simp, by rw [hque]; simp⟩
    · refine ⟨hlog, ?_, hnd⟩
      rw [hlog]
      simpa using List.sorted_lt_range σk.index
  · intro x xs
    exact ⟨minEntry_mem x xs, minEntry_least x xs⟩

/-- Witness for C2 (amended) on a concrete two-step run. -/
theorem C2_witness :
    (∀ k σk, stepsN Alg.astar (fun _ => false) k
        (initSearch Alg.astar g22 (0, 0) (1, 1)) = some σk →
      σk.log = 0 :: List.range σk.index ∧
      List.Sorted (· < ·) σk.log.tail ∧
      (σk.queue.map (fun en => en.2.1)).Nodup) ∧
    (∀ (x : Entry) (xs : List Entry), minEntry x xs ∈ x :: xs ∧
      ∀ y ∈ x :: xs, keyLT y (minEntry x xs) = false) :=
  C2_amended_insertion_indices Alg.astar (fun _ => false) g22 (0, 0) (1, 1)

/-- Counterexample to C2 as stated: on a concrete run the chronological list
of indices passed to the queue insertions is `[0, 0, 1, 2]`, which is not
strictly increasing — the first loop insertion repeats the Start entry's
index 0. -/
theorem C2_counterexample :
    (stepsN Alg.astar (fun _ => false) 2 (initSearch Alg.astar g22 (0, 0) (1, 1))).map
      (fun σ => σ.log) = some [0, 0, 1, 2] ∧
    ¬ List.Sorted (· < ·) [0, 0, 1, 2] := by
  refine ⟨by decide, by decide⟩

/-! ## Claim C5 -/

theorem gsLT_trans {a b c : GScore} (h1 : gsLT a b = true) (h2 : gsLT b c = true) :
    gsLT a c = true := by
  cases a <;> cases b <;> cases c <;> simp_all [gsLT] <;> omega

theorem gsLE_trans {a b c : GScore} (h1 : a = b ∨ gsLT a b = true)
    (h2 : b = c ∨ gsLT b c = true) : a = c ∨ gsLT a c = true := by
  rcases h1 with rfl | h1
  · exact h2
  · rcases h2 with rfl | h2
    · exact Or.inr h1
    · exact Or.inr (gsLT_trans h1 h2)

theorem g_score_updNode {s : GState} (hwf : wf s) (p : Nat × Nat)
    (f : Node → Node) (hf : ∀ nd, (f nd).g_score = nd.g_score) (q : Nat × Nat) :
    (nodeAt (updNode s p f) q).g_score = (nodeAt s q).g_score := by
  by_cases hq : q = p
  · subst hq
    by_cases hin : inB s q
    · rw [nodeAt_updNode_self hwf hin, hf]
    · rw [nodeAt_updNode_out hwf hin]
  · rw [nodeAt_updNode_ne _ hq]

theorem g_score_make_visited {s : GState} (hwf : wf s) (p q : Nat × Nat) :
    (nodeAt (make_visited s p) q).g_score = (nodeAt s q).g_score := by
  rw [make_visited]
  split
  · exact g_score_updNode hwf p
      (fun nd => { nd with color := Col.red, needs_refresh := true }) (fun nd => rfl) q
  · rfl

theorem wf_make_visited {s : GState} (hwf : wf s) (p : Nat × Nat) :
    wf (make_visited s p) := by
  rw [make_visited]
  split
  · exact wf_updNode hwf _ _
  · exact hwf

theorem wf_make_active {s : GState} (hwf : wf s) (p : Nat × Nat) :
    wf (make_active s p) := wf_updNode hwf _ _

/-- One relaxation only rewrites the neighbour's g-score, strictly downwards,
and preserves well-formedness and nonnegativity of finite g-scores. -/
theorem relaxOne_grid (alg : Alg) (cur : Nat × Nat) (s : GState)
    (q : List Entry) (idx : Nat) (lg : List Nat) (nb : Nat × Nat) (hwf : wf s) :
    wf (relaxOne alg cur (s, q, idx, lg) nb).1 ∧
    (∀ p, (nodeAt (relaxOne alg cur (s, q, idx, lg) nb).1 p).g_score =
        (nodeAt s p).g_score ∨
      gsLT (nodeAt (relaxOne alg cur (s, q, idx, lg) nb).1 p).g_score
        ((nodeAt s p).g_score) = true) ∧
    ((∀ p v, (nodeAt s p).g_score = GScore.fin v → 0 ≤ v) →
      ∀ p v, (nodeAt (relaxOne alg cur (s, q, idx, lg) nb).1 p).g_score =
        GScore.fin v → 0 ≤ v) := by
  by_cases h1 : ¬ is_obstacle s nb
  · by_cases h2 : gsLT (gsAdd1 (nodeAt s cur).g_score) (nodeAt s nb).g_score = true
    · have hg' : ∀ p,
          (nodeAt (updNode s nb (fun nd =>
            { nd with
              g_score := gsAdd1 (nodeAt s cur).g_score,
              parent_node := some cur })) p).g_score =
          (if p = nb ∧ inB s nb then gsAdd1 (nodeAt s cur).g_score
           else (nodeAt s p).g_score) := by
        intro p
        by_cases hp : p = nb
        · subst hp
          by_cases hin : inB s p
          · rw [nodeAt_updNode_self hwf hin, if_pos ⟨rfl, hin⟩]
          · rw [nodeAt_updNode_out hwf hin, if_neg (fun hh => hin hh.2)]
        · rw [nodeAt_updNode_ne _ hp, if_neg (fun hh => hp hh.1)]
      have hwf' : wf (updNode s nb (fun nd =>
          { nd with
            g_score := gsAdd1 (nodeAt s cur).g_score,
            parent_node := some cur })) := wf_updNode hwf _ _
      have hcore : ∀ (t : GState), wf t →
          (∀ p, (nodeAt t p).g_score =
            (if p = nb ∧ inB s nb then gsAdd1 (nodeAt s cur).g_score
             else (nodeAt s p).g_score)) →
          wf t ∧
          (∀ p, (nodeAt t p).g_score = (nodeAt s p).g_score ∨
            gsLT (nodeAt t p).g_score ((nodeAt s p).g_score) = true) ∧
          ((∀ p v, (nodeAt s p).g_score = GScore.fin v → 0 ≤ v) →
            ∀ p v, (nodeAt t p).g_score = GScore.fin v → 0 ≤ v) := by
        intro t hwft hgt
        refine ⟨hwft, ?_, ?_⟩
        · intro p
          rw [hgt p]
          by_cases hp : p = nb ∧ inB s nb
          · rw [if_pos hp]
            right
            rw [hp.1]
            exact h2
          · rw [if_neg hp]
            left; rfl
        · intro hnn p v hv
          rw [hgt p] at hv
          by_cases hp : p = nb ∧ inB s nb
          · rw [if_pos hp] at hv
            cases hcg : (nodeAt s cur).g_score with
            | inf => rw [hcg] at hv; exact absurd hv (by simp [gsAdd1])
            | fin w =>
                rw [hcg] at hv
                simp only [gsAdd1, GScore.fin.injEq] at hv
                have := hnn cur w hcg
                omega
          · rw [if_neg hp] at hv
            exact hnn p v hv
      rw [relaxOne]
      rw [if_pos h1, if_pos h2]
      by_cases h3 : ¬ is_active (updNode s nb (fun nd =>
          { nd with
            g_score := gsAdd1 (nodeAt s cur).g_score,
            parent_node := some cur })) nb ∧
          ¬ is_visited (updNode s nb (fun nd =>
          { nd with
            g_score := gsAdd1 (nodeAt s cur).g_score,
            parent_node := some cur })) nb
      · rw [if_pos h3]
        dsimp only
        refine hcore _ (wf_make_active hwf' _) ?_
        intro p
        rw [make_active, g_score_updNode hwf' nb
          (fun nd => { nd with color := Col.green, needs_refresh := true })
          (fun nd => rfl) p]
        exact hg' p
      · rw [if_neg h3]
        exact hcore _ hwf' hg'
    · rw [relaxOne, if_pos h1, if_neg h2]
      exact ⟨hwf, fun p => Or.inl rfl, fun hnn => hnn⟩
  · rw [relaxOne, if_neg h1]
    exact ⟨hwf, fun p => Or.inl rfl, fun hnn => hnn⟩

/-- The relaxation fold: well-formedness, pointwise monotone decrease of
g-scores, and nonnegativity are preserved. -/
theorem relaxFold_grid (alg : Alg) (cur : Nat × Nat) (nbs : List (Nat × Nat)) :
    ∀ (s : GState) (q : List Entry) (idx : Nat) (lg : List Nat), wf s →
    wf (nbs.foldl (relaxOne alg cur) (s, q, idx, lg)).1 ∧
    (∀ p, (nodeAt (nbs.foldl (relaxOne alg cur) (s, q, idx, lg)).1 p).g_score =
        (nodeAt s p).g_score ∨
      gsLT (nodeAt (nbs.foldl (relaxOne alg cur) (s, q, idx, lg)).1 p).g_score
        ((nodeAt s p).g_score) = true) ∧
    ((∀ p v, (nodeAt s p).g_score = GScore.fin v → 0 ≤ v) →
      ∀ p v, (nodeAt (nbs.foldl (relaxOne alg cur) (s, q, idx, lg)).1 p).g_score =
        GScore.fin v → 0 ≤ v) := by
  induction nbs with
  | nil =>
      intro s q idx lg hwf
      exact ⟨hwf, fun p => Or.inl rfl, fun hnn => hnn⟩
  | cons nb nbs ih =>
      intro s q idx lg hwf
      rw [List.foldl_cons]
      obtain ⟨u1, u2, u3⟩ := relaxOne_grid alg cur s q idx lg nb hwf
      have heta : ((relaxOne alg cur (s, q, idx, lg) nb).1,
          (relaxOne alg cur (s, q, idx, lg) nb).2.1,
          (relaxOne alg cur (s, q, idx, lg) nb).2.2.1,
          (relaxOne alg cur (s, q, idx, lg) nb).2.2.2) =
          relaxOne alg cur (s, q, idx, lg) nb := rfl
      obtain ⟨w1, w2, w3⟩ := ih (relaxOne alg cur (s, q, idx, lg) nb).1
        (relaxOne alg cur (s, q, idx, lg) nb).2.1
        (relaxOne alg cur (s, q, idx, lg) nb).2.2.1
        (relaxOne alg cur (s, q, idx, lg) nb).2.2.2 u1
      rw [heta] at w1 w2 w3
      exact ⟨w1, fun p => gsLE_trans (w2 p) (u2 p), fun hnn => w3 (u3 hnn)⟩

/-- g-scores after the search initialisation: Start is set to 0, every other
cell keeps its previous value. -/
theorem initSearch_g (alg : Alg) (s0 : GState) (p0 p1 : Nat × Nat) (hwf : wf s0) :
    wf (initSearch alg s0 p0 p1).s ∧
    ∀ p, (nodeAt (initSearch alg s0 p0 p1).s p).g_score =
      (if p = p0 ∧ inB s0 p0 then GScore.fin 0 else (nodeAt s0 p).g_score) := by
  have hin : ∀ p ∈ allPositions s0, inB s0 p := fun p hp => mem_allPositions.mp hp
  obtain ⟨w1, w2, w3, w4, w5, w6⟩ :=
    cellwise_foldl (cellwise_initH p1) (allPositions s0) s0 hwf hin (allPositions_nodup s0)
  simp only [initSearch]
  refine ⟨wf_updNode w1 _ _, ?_⟩
  intro p
  have hg1 : ∀ r, (nodeAt ((allPositions s0).foldl
      (fun st p => updNode (update_h_score st p1 p) p
        (fun nd => { nd with parent_node := none })) s0) r).g_score =
      (nodeAt s0 r).g_score := by
    intro r
    rw [w6 r]
    split
    · rfl
    · rfl
  by_cases hp : p = p0
  · subst hp
    by_cases hb : inB s0 p
    · rw [nodeAt_updNode_self w1 (by simp only [inB, w2, w3]; exact hb),
        if_pos ⟨rfl, hb⟩]
    · rw [nodeAt_updNode_out w1 (by simp only [inB, w2, w3]; exact hb),
        if_neg (fun hh => hb hh.2), hg1 p]
  · rw [nodeAt_updNode_ne _ hp, if_neg (fun hh => hp hh.1), hg1 p]

/-- One continuing loop iteration preserves well-formedness and nonnegativity
and only ever rewrites g-scores strictly downwards. -/
theorem stepSearch_grid {alg : Alg} {cancel : Nat → Bool} {σ σ' : SState}
    (hwf : wf σ.s) (h : stepSearch alg cancel σ = StepOut.cont σ') :
    wf σ'.s ∧
    (∀ p, (nodeAt σ'.s p).g_score = (nodeAt σ.s p).g_score ∨
      gsLT ((nodeAt σ'.s p).g_score) ((nodeAt σ.s p).g_score) = true) ∧
    ((∀ p v, (nodeAt σ.s p).g_score = GScore.fin v → 0 ≤ v) →
      ∀ p v, (nodeAt σ'.s p).g_score = GScore.fin v → 0 ≤ v) := by
  obtain ⟨e, es, hqe, hc, hend, hσ'⟩ := stepSearch_cont_eq h
  have hwfb : wf (make_visited σ.s (minEntry e es).2.2) :=
    wf_make_visited hwf _
  obtain ⟨w1, w2, w3⟩ := relaxFold_grid alg (minEntry e es).2.2
    (get_neighbours (make_visited σ.s (minEntry e es).2.2) (minEntry e es).2.2 1)
    (make_visited σ.s (minEntry e es).2.2) (σ.queue.erase (minEntry e es))
    σ.index σ.log hwfb
  have hbase : ∀ p, (nodeAt (make_visited σ.s (minEntry e es).2.2) p).g_score =
      (nodeAt σ.s p).g_score := fun p => g_score_make_visited hwf _ p
  have hs' : σ'.s = (relaxRes alg σ e es).1 := by rw [hσ']
  rw [hs']
  refine ⟨w1, ?_, ?_⟩
  · intro p
    have := w2 p
    rw [hbase p] at this
    exact this
  · intro hnn p v hv
    refine w3 ?_ p v hv
    intro r w hw
    rw [hbase r] at hw
    exact hnn r w hw

/-! ## Claim C5 -/

/-- C5: during a search run from a fresh grid, every g-score is either
infinity or a nonnegative finite value at every reachable state, and every
change to a cell's g-score — by the initialisation (Start set from infinity
to 0) or by any loop iteration — strictly decreases it. -/
theorem C5_g_nonneg_monotone (alg : Alg) (cancel : Nat → Bool)
    (s0 : GState) (p0 p1 : Nat × Nat) (hv : ValidInit s0 p0 p1) :
    (∀ p, (nodeAt (initSearch alg s0 p0 p1).s p).g_score = (nodeAt s0 p).g_score ∨
      gsLT ((nodeAt (initSearch alg s0 p0 p1).s p).g_score)
        ((nodeAt s0 p).g_score) = true) ∧
    (∀ k σk, stepsN alg cancel k (initSearch alg s0 p0 p1) = some σk →
      (∀ p v, (nodeAt σk.s p).g_score = GScore.fin v → 0 ≤ v) ∧
      (∀ σ', stepSearch alg cancel σk = StepOut.cont σ' →
        ∀ p, (nodeAt σ'.s p).g_score = (nodeAt σk.s p).g_score ∨
          gsLT ((nodeAt σ'.s p).g_score) ((nodeAt σk.s p).g_score) = true)) := by
  obtain ⟨hwf0, hg0⟩ := initSearch_g alg s0 p0 p1 hv.hwf
  constructor
  · intro p
    rw [hg0 p]
    by_cases hp : p = p0 ∧ inB s0 p0
    · rw [if_pos hp, hp.1, hv.hginf p0]
      right
      rfl
    · rw [if_neg hp]
      left; rfl
  · have hnn0 : ∀ p v, (nodeAt (initSearch alg s0 p0 p1).s p).g_score =
        GScore.fin v → 0 ≤ v := by
      intro p v hpv
      rw [hg0 p] at hpv
      by_cases hp : p = p0 ∧ inB s0 p0
      · rw [if_pos hp] at hpv
        simp only [GScore.fin.injEq] at hpv
        omega
      · rw [if_neg hp, hv.hginf p] at hpv
        exact absurd hpv (by simp)
    have main : ∀ k σ σk, wf σ.s →
        (∀ p v, (nodeAt σ.s p).g_score = GScore.fin v → 0 ≤ v) →
        stepsN alg cancel k σ = some σk →
        wf σk.s ∧ (∀ p v, (nodeAt σk.s p).g_score = GScore.fin v → 0 ≤ v) := by
      intro k
      induction k with
      | zero =>
          intro σ σk hw hn hs
          rw [stepsN] at hs
          simp only [Option.some_inj] at hs
          rw [← hs]
          exact ⟨hw, hn⟩
      | succ k ih =>
          intro σ σk hw hn hs
          rw [stepsN] at hs
          cases hstep : stepSearch alg cancel σ with
          | done r g => rw [hstep] at hs; exact absurd hs (by simp)
          | cont σ' =>
              rw [hstep] at hs
              obtain ⟨u1, _, u3⟩ := stepSearch_grid hw hstep
              exact ih σ' σk u1 (u3 hn) hs
    intro k σk hs
    obtain ⟨hwfk, hnnk⟩ := main k _ σk hwf0 hnn0 hs
    refine ⟨hnnk, ?_⟩
    intro σ' hstep
    exact (stepSearch_grid hwfk hstep).2.1

/-- A cell property that holds for the default cell and every stored cell
holds at every position (out-of-range reads return the default). -/
theorem nodeAt_prop_of_flatten {s : GState} {P : Node → Prop} (hP : P initNode)
    (h : ∀ nd ∈ s.nodes.flatten, P nd) : ∀ p, P (nodeAt s p) := by
  intro p
  simp only [nodeAt, List.getD]
  cases h1 : s.nodes.get? p.1 with
  | none => simpa using hP
  | some row =>
      simp only [Option.getD_some]
      cases h2 : row.get? p.2 with
      | none => simpa using hP
      | some nd =>
          simp only [Option.getD_some]
          apply h
          rw [List.mem_flatten]
          exact ⟨row, List.get?_mem h1, List.get?_mem h2⟩

/-- Witness for C5: the fresh 5-by-5 grid is a valid initial state, and the
theorem instantiates on it. -/
theorem C5_witness :
    (∀ p, (nodeAt (initSearch Alg.astar g55 (0, 0) (4, 4)).s p).g_score =
        (nodeAt g55 p).g_score ∨
      gsLT ((nodeAt (initSearch Alg.astar g55 (0, 0) (4, 4)).s p).g_score)
        ((nodeAt g55 p).g_score) = true) ∧
    (∀ k σk, stepsN Alg.astar (fun _ => false) k
        (initSearch Alg.astar g55 (0, 0) (4, 4)) = some σk →
      (∀ p v, (nodeAt σk.s p).g_score = GScore.fin v → 0 ≤ v) ∧
      (∀ σ', stepSearch Alg.astar (fun _ => false) σk = StepOut.cont σ' →
        ∀ p, (nodeAt σ'.s p).g_score = (nodeAt σk.s p).g_score ∨
          gsLT ((nodeAt σ'.s p).g_score) ((nodeAt σk.s p).g_score) = true)) :=
  C5_g_nonneg_monotone Alg.astar (fun _ => false) g55 (0, 0) (4, 4)
    ⟨by decide, by decide, by decide, by decide, by decide, by decide,
     nodeAt_prop_of_flatten (P := fun nd => nd.g_score = GScore.inf) rfl (by decide),
     by decide, by decide⟩

/-! ## Claim C1 -/

/-- Full anatomy of one relaxation: dimensions, designations and
well-formedness are preserved, any added queue entries denote the neighbour,
and either the grid is untouched, or a guarded improvement happened that
rewrites exactly the neighbour (new g-score, new parent, color possibly set
to green). -/
theorem relaxOne_char (alg : Alg) (cur : Nat × Nat) (s : GState)
    (q : List Entry) (idx : Nat) (lg : List Nat) (nb : Nat × Nat) (hwf : wf s) :
    (relaxOne alg cur (s, q, idx, lg) nb).1.ROWS = s.ROWS ∧
    (relaxOne alg cur (s, q, idx, lg) nb).1.COLUMNS = s.COLUMNS ∧
    (relaxOne alg cur (s, q, idx, lg) nb).1.START = s.START ∧
    (relaxOne alg cur (s, q, idx, lg) nb).1.END = s.END ∧
    wf (relaxOne alg cur (s, q, idx, lg) nb).1 ∧
    (∃ qadd, (relaxOne alg cur (s, q, idx, lg) nb).2.1 = q ++ qadd ∧
      ∀ en ∈ qadd, en.2.2 = nb) ∧
    (((relaxOne alg cur (s, q, idx, lg) nb).1 = s ∧
      (relaxOne alg cur (s, q, idx, lg) nb).2.1 = q) ∨
      (is_obstacle s nb = false ∧
       gsLT (gsAdd1 (nodeAt s cur).g_score) ((nodeAt s nb).g_score) = true ∧
       (∀ p, p ≠ nb →
         nodeAt (relaxOne alg cur (s, q, idx, lg) nb).1 p = nodeAt s p) ∧
       (¬ inB s nb →
         nodeAt (relaxOne alg cur (s, q, idx, lg) nb).1 nb = nodeAt s nb) ∧
       (inB s nb →
         (nodeAt (relaxOne alg cur (s, q, idx, lg) nb).1 nb).g_score =
           gsAdd1 (nodeAt s cur).g_score ∧
         (nodeAt (relaxOne alg cur (s, q, idx, lg) nb).1 nb).parent_node = some cur ∧
         ((nodeAt (relaxOne alg cur (s, q, idx, lg) nb).1 nb).color = Col.green ∨
          (nodeAt (relaxOne alg cur (s, q, idx, lg) nb).1 nb).color =
            (nodeAt s nb).color)))) := by
  by_cases h1 : ¬ is_obstacle s nb
  · by_cases h2 : gsLT (gsAdd1 (nodeAt s cur).g_score) (nodeAt s nb).g_score = true
    · set f : Node → Node := fun nd =>
        { nd with
          g_score := gsAdd1 (nodeAt s cur).g_score, parent_node := some cur } with hf
      have hwf1 : wf (updNode s nb f) := wf_updNode hwf _ _
      by_cases h3 : ¬ is_active (updNode s nb f) nb ∧ ¬ is_visited (updNode s nb f) nb
      · rw [relaxOne, if_pos h1, if_pos h2, if_pos h3]
        dsimp only
        refine ⟨rfl, rfl, rfl, rfl, wf_make_active hwf1 nb, ⟨_, rfl, by simp⟩, Or.inr ?_⟩
        refine ⟨by simpa using h1, h2, ?_, ?_, ?_⟩
        · intro p hp
          rw [make_active, nodeAt_updNode_ne _ hp, nodeAt_updNode_ne _ hp]
        · intro hb
          rw [make_active, nodeAt_updNode_out hwf1 hb, nodeAt_updNode_out hwf hb]
        · intro hb
          rw [make_active, nodeAt_updNode_self hwf1 hb, nodeAt_updNode_self hwf hb]
          exact ⟨rfl, rfl, Or.inl rfl⟩
      · rw [relaxOne, if_pos h1, if_pos h2, if_neg h3]
        dsimp only
        refine ⟨rfl, rfl, rfl, rfl, hwf1, ⟨[], by simp, by simp⟩, Or.inr ?_⟩
        refine ⟨by simpa using h1, h2, ?_, ?_, ?_⟩
        · intro p hp
          rw [nodeAt_updNode_ne _ hp]
        · intro hb
          rw [nodeAt_updNode_out hwf hb]
        · intro hb
          rw [nodeAt_updNode_self hwf hb]
          exact ⟨rfl, rfl, Or.inr rfl⟩
    · rw [relaxOne, if_pos h1, if_neg h2]
      exact ⟨rfl, rfl, rfl, rfl, hwf, ⟨[], by simp, by simp⟩, Or.inl ⟨rfl, rfl⟩⟩
  · rw [relaxOne, if_neg h1]
    exact ⟨rfl, rfl, rfl, rfl, hwf, ⟨[], by simp, by simp⟩, Or.inl ⟨rfl, rfl⟩⟩

/-- One relaxation preserves the search grid invariant and the queue
condition, and leaves the dequeued cell untouched. -/
theorem relaxOne_GInv (alg : Alg) (p0 p1 cur : Nat × Nat) (s : GState)
    (q : List Entry) (idx : Nat) (lg : List Nat) (nb : Nat × Nat)
    (hG : GInv p0 p1 s) (hq : queueFin s q)
    (hnbB : inB s nb) (hadj : adjacent cur nb) (hnc : nb ≠ cur)
    (hcurB : inB s cur) (w : Int) (hcurg : (nodeAt s cur).g_score = GScore.fin w) :
    GInv p0 p1 (relaxOne alg cur (s, q, idx, lg) nb).1 ∧
    queueFin (relaxOne alg cur (s, q, idx, lg) nb).1
      (relaxOne alg cur (s, q, idx, lg) nb).2.1 ∧
    (nodeAt (relaxOne alg cur (s, q, idx, lg) nb).1 cur).g_score = GScore.fin w ∧
    (relaxOne alg cur (s, q, idx, lg) nb).1.ROWS = s.ROWS ∧
    (relaxOne alg cur (s, q, idx, lg) nb).1.COLUMNS = s.COLUMNS := by
  obtain ⟨c1, c2, c3, c4, c5, ⟨qadd, cq, cqnb⟩, cmain⟩ :=
    relaxOne_char alg cur s q idx lg nb hG.hwf
  set s' := (relaxOne alg cur (s, q, idx, lg) nb).1 with hs'
  have hinB : ∀ r, inB s' r ↔ inB s r := by
    intro r; rw [inB, inB, c1, c2]
  rcases cmain with ⟨hsame, hqsame⟩ | ⟨hob, hgrd, hother, _, hselff⟩
  · rw [hsame, hqsame]
    exact ⟨hG, hq, hcurg, rfl, rfl⟩
  · obtain ⟨hgnb, hpnb, hcnb⟩ := hselff hnbB
    have hnbp0 : nb ≠ p0 := by
      intro hh
      subst hh
      rw [hG.hg0, hcurg] at hgrd
      have hw := hG.nonneg cur w hcurg
      simp only [gsAdd1, gsLT, decide_eq_true_eq] at hgrd
      omega
    have hcur' : (nodeAt s' cur).g_score = GScore.fin w := by
      rw [hother cur (Ne.symm hnc)]
      exact hcurg
    have hobs' : ∀ r, is_obstacle s' r = is_obstacle s r ∨
        (r = nb ∧ is_obstacle s' r = false) := by
      intro r
      by_cases hr : r = nb
      · subst hr
        right
        refine ⟨rfl, ?_⟩
        rw [is_obstacle]
        rcases hcnb with hcg | hcg
        · rw [hcg]; rfl
        · rw [hcg]
          rw [is_obstacle] at hob
          exact hob
      · left
        rw [is_obstacle, is_obstacle, hother r hr]
    constructor
    · refine ⟨c5, by rw [c3, hG.hst], by rw [c4, hG.hen],
        (hinB p0).mpr hG.hin0, (hinB p1).mpr hG.hin1, hG.hne, ?_, ?_, ?_, ?_, ?_⟩
      · rw [hother p0 (Ne.symm hnbp0)]
        exact hG.hg0
      · rw [hother p0 (Ne.symm hnbp0)]
        exact hG.hpar0
      · intro p v hv
        by_cases hp : p = nb
        · subst hp
          rw [hgnb, hcurg] at hv
          simp only [gsAdd1, GScore.fin.injEq] at hv
          have := hG.nonneg cur w hcurg
          omega
        · rw [hother p hp] at hv
          exact hG.nonneg p v hv
      · intro p v hpB hv
        rcases hobs' p with ho | ⟨rfl, ho⟩
        · rw [ho]
          by_cases hp : p = nb
          · subst hp
            rw [is_obstacle] at hob ⊢
            exact hob
          · rw [hother p hp] at hv
            exact hG.noObst p v ((hinB p).mp hpB) hv
        · exact ho
      · intro p v hpB hv hpne
        by_cases hp : p = nb
        · subst hp
          refine ⟨cur, w, ?_, (hinB cur).mpr hcurB, hadj, hcur', ?_⟩
          · exact hpnb
          · rw [hgnb, hcurg] at hv
            simp only [gsAdd1, GScore.fin.injEq] at hv
            omega
        · have hunch := hother p hp
          rw [hunch] at hv
          obtain ⟨q', w', hpar, hq'B, hadj', hgq', hlt⟩ :=
            hG.chain p v ((hinB p).mp hpB) hv hpne
          by_cases hq'nb : q' = nb
          · subst hq'nb
            refine ⟨q', w + 1, by rw [hunch]; exact hpar, (hinB q').mpr hq'B,
              hadj', ?_, ?_⟩
            · rw [hgnb, hcurg]
              rfl
            · rw [hgq', hcurg] at hgrd
              simp only [gsAdd1, gsLT, decide_eq_true_eq] at hgrd
              omega
          · exact ⟨q', w', by rw [hunch]; exact hpar, (hinB q').mpr hq'B, hadj',
              by rw [hother q' hq'nb]; exact hgq', hlt⟩
    · refine ⟨?_, hcur', c1, c2⟩
      rw [cq]
      intro en hen
      rcases List.mem_append.mp hen with hen | hen
      · obtain ⟨hB, v, hv⟩ := hq en hen
        refine ⟨(hinB _).mpr hB, ?_⟩
        by_cases hp : en.2.2 = nb
        · rw [hp, hgnb, hcurg]
          exact ⟨w + 1, rfl⟩
        · rw [hother _ hp]
          exact ⟨v, hv⟩
      · rw [cqnb en hen]
        refine ⟨(hinB nb).mpr hnbB, ?_⟩
        rw [hgnb, hcurg]
        exact ⟨w + 1, rfl⟩

theorem mem_get_neighbours_one {s : GState} {p q : Nat × Nat} (hp : inB s p)
    (hq : q ∈ get_neighbours s p 1) : inB s q ∧ adjacent p q ∧ q ≠ p := by
  obtain ⟨hp1, hp2⟩ := hp
  have hsplit : ∀ (c : Prop) (inst : Decidable c) (x : Nat × Nat),
      q ∈ (if c then [x] else ([] : List (Nat × Nat))) → c ∧ q = x := by
    intro c inst x h
    split at h
    · simp only [List.mem_singleton] at h
      exact ⟨by assumption, h⟩
    · simp at h
  simp only [get_neighbours, List.mem_append] at hq
  rcases hq with ((h | h) | h) | h
  all_goals obtain ⟨hb, rfl⟩ := hsplit _ _ _ h
  · exact ⟨⟨by omega, hp2⟩, Or.inr ⟨rfl, Or.inl (by omega)⟩,
      by intro hh; have := congrArg Prod.fst hh; simp at this; omega⟩
  · exact ⟨⟨hp1, by omega⟩, Or.inl ⟨rfl, Or.inl (by omega)⟩,
      by intro hh; have := congrArg Prod.snd hh; simp at this; omega⟩
  · exact ⟨⟨by omega, hp2⟩, Or.inr ⟨rfl, Or.inr rfl⟩,
      by intro hh; have := congrArg Prod.fst hh; simp at this⟩
  · exact ⟨⟨hp1, by omega⟩, Or.inl ⟨rfl, Or.inr rfl⟩,
      by intro hh; have := congrArg Prod.snd hh; simp at this⟩

/-- The relaxation fold preserves the grid invariant and the queue
condition. -/
theorem relaxFold_GInv (alg : Alg) (p0 p1 cur : Nat × Nat)
    (nbs : List (Nat × Nat)) :
    ∀ (s : GState) (q : List Entry) (idx : Nat) (lg : List Nat),
    GInv p0 p1 s → queueFin s q →
    (∀ nb ∈ nbs, inB s nb ∧ adjacent cur nb ∧ nb ≠ cur) →
    inB s cur → ∀ w, (nodeAt s cur).g_score = GScore.fin w →
    GInv p0 p1 (nbs.foldl (relaxOne alg cur) (s, q, idx, lg)).1 ∧
    queueFin (nbs.foldl (relaxOne alg cur) (s, q, idx, lg)).1
      (nbs.foldl (relaxOne alg cur) (s, q, idx, lg)).2.1 := by
  induction nbs with
  | nil =>
      intro s q idx lg hG hq _ _ w _
      exact ⟨hG, hq⟩
  | cons nb nbs ih =>
      intro s q idx lg hG hq hnbs hcurB w hcurg
      rw [List.foldl_cons]
      obtain ⟨hnbB, hadj, hnc⟩ := hnbs nb (List.mem_cons_self _ _)
      obtain ⟨u1, u2, u3, u4, u5⟩ :=
        relaxOne_GInv alg p0 p1 cur s q idx lg nb hG hq hnbB hadj hnc hcurB w hcurg
      have heta : ((relaxOne alg cur (s, q, idx, lg) nb).1,
          (relaxOne alg cur (s, q, idx, lg) nb).2.1,
          (relaxOne alg cur (s, q, idx, lg) nb).2.2.1,
          (relaxOne alg cur (s, q, idx, lg) nb).2.2.2) =
          relaxOne alg cur (s, q, idx, lg) nb := rfl
      have := ih (relaxOne alg cur (s, q, idx, lg) nb).1
        (relaxOne alg cur (s, q, idx, lg) nb).2.1
        (relaxOne alg cur (s, q, idx, lg) nb).2.2.1
        (relaxOne alg cur (s, q, idx, lg) nb).2.2.2 u1 u2
        (by
          intro r hr
          obtain ⟨b1, b2, b3⟩ := hnbs r (List.mem_cons_of_mem _ hr)
          exact ⟨by rw [inB, u4, u5]; exact b1, b2, b3⟩)
        (by rw [inB, u4, u5]; exact hcurB) w u3
      rw [heta] at this
      exact this

theorem make_visited_ROWS (s : GState) (p : Nat × Nat) :
    (make_visited s p).ROWS = s.ROWS := by
  rw [make_visited]; split <;> rfl

theorem make_visited_COLUMNS (s : GState) (p : Nat × Nat) :
    (make_visited s p).COLUMNS = s.COLUMNS := by
  rw [make_visited]; split <;> rfl

theorem make_visited_START (s : GState) (p : Nat × Nat) :
    (make_visited s p).START = s.START := by
  rw [make_visited]; split <;> rfl

theorem make_visited_END (s : GState) (p : Nat × Nat) :
    (make_visited s p).END = s.END := by
  rw [make_visited]; split <;> rfl

theorem make_visited_nodeAt {s : GState} (hwf : wf s) (cur r : Nat × Nat) :
    nodeAt (make_visited s cur) r = nodeAt s r ∨
    (r = cur ∧ nodeAt (make_visited s cur) r =
      { nodeAt s r with color := Col.red, needs_refresh := true }) := by
  rw [make_visited]
  split
  · by_cases hr : r = cur
    · subst hr
      by_cases hb : inB s r
      · right
        exact ⟨rfl, nodeAt_updNode_self hwf hb _⟩
      · left
        exact nodeAt_updNode_out hwf hb _
    · left
      exact nodeAt_updNode_ne _ hr _
  · left; rfl

/-- Marking the dequeued cell visited preserves the invariant and the queue
condition, and leaves g-scores and parents unchanged. -/
theorem make_visited_GInv {p0 p1 : Nat × Nat} {s : GState} (hG : GInv p0 p1 s)
    (cur : Nat × Nat) :
    GInv p0 p1 (make_visited s cur) ∧
    (∀ r, (nodeAt (make_visited s cur) r).g_score = (nodeAt s r).g_score) ∧
    (∀ r, (nodeAt (make_visited s cur) r).parent_node = (nodeAt s r).parent_node) := by
  have hg : ∀ r, (nodeAt (make_visited s cur) r).g_score = (nodeAt s r).g_score := by
    intro r
    rcases make_visited_nodeAt hG.hwf cur r with h | ⟨_, h⟩ <;> rw [h]
  have hpar : ∀ r, (nodeAt (make_visited s cur) r).parent_node =
      (nodeAt s r).parent_node := by
    intro r
    rcases make_visited_nodeAt hG.hwf cur r with h | ⟨_, h⟩ <;> rw [h]
  have hinB : ∀ r, inB (make_visited s cur) r ↔ inB s r := by
    intro r; rw [inB, inB, make_visited_ROWS, make_visited_COLUMNS]
  have hob : ∀ r, is_obstacle (make_visited s cur) r = true →
      is_obstacle s r = true := by
    intro r h
    rcases make_visited_nodeAt hG.hwf cur r with hh | ⟨_, hh⟩
    · rw [is_obstacle, hh] at h
      exact h
    · rw [is_obstacle, hh] at h
      simp at h
  refine ⟨⟨wf_make_visited hG.hwf cur, by rw [make_visited_START]; exact hG.hst,
    by rw [make_visited_END]; exact hG.hen, (hinB p0).mpr hG.hin0,
    (hinB p1).mpr hG.hin1, hG.hne, by rw [hg]; exact hG.hg0,
    by rw [hpar]; exact hG.hpar0, ?_, ?_, ?_⟩, hg, hpar⟩
  · intro p v hv
    rw [hg] at hv
    exact hG.nonneg p v hv
  · intro p v hpB hv
    rw [hg] at hv
    cases hcase : is_obstacle (make_visited s cur) p
    · rfl
    · exact absurd (hob p hcase) (by rw [hG.noObst p v ((hinB p).mp hpB) hv]; simp)
  · intro p v hpB hv hpne
    rw [hg] at hv
    obtain ⟨q', w', h1, h2, h3, h4, h5⟩ := hG.chain p v ((hinB p).mp hpB) hv hpne
    exact ⟨q', w', by rw [hpar]; exact h1, (hinB q').mpr h2, h3, by rw [hg]; exact h4, h5⟩

/-- A continuing loop iteration preserves the search invariant. -/
theorem stepSearch_SInv {alg : Alg} {cancel : Nat → Bool} {p0 p1 : Nat × Nat}
    {σ σ' : SState} (hS : SInv p0 p1 σ)
    (h : stepSearch alg cancel σ = StepOut.cont σ') : SInv p0 p1 σ' := by
  obtain ⟨hG, hq⟩ := hS
  obtain ⟨e, es, hqe, hc, hend, hσ'⟩ := stepSearch_cont_eq h
  have hmem : minEntry e es ∈ σ.queue := by
    rw [hqe]; exact minEntry_mem e es
  obtain ⟨hcurB, w, hcurg⟩ := hq (minEntry e es) hmem
  obtain ⟨hGv, hgv, hpv⟩ := make_visited_GInv hG (minEntry e es).2.2
  have hqv : queueFin (make_visited σ.s (minEntry e es).2.2)
      (σ.queue.erase (minEntry e es)) := by
    intro en hen
    obtain ⟨hB, v, hv⟩ := hq en (List.mem_of_mem_erase hen)
    refine ⟨?_, v, by rw [hgv]; exact hv⟩
    rw [inB, make_visited_ROWS, make_visited_COLUMNS]
    exact hB
  have hcurB' : inB (make_visited σ.s (minEntry e es).2.2) (minEntry e es).2.2 := by
    rw [inB, make_visited_ROWS, make_visited_COLUMNS]
    exact hcurB
  have hnbs : ∀ nb ∈ get_neighbours (make_visited σ.s (minEntry e es).2.2)
      (minEntry e es).2.2 1,
      inB (make_visited σ.s (minEntry e es).2.2) nb ∧
      adjacent (minEntry e es).2.2 nb ∧ nb ≠ (minEntry e es).2.2 := by
    intro nb hnb
    exact mem_get_neighbours_one hcurB' hnb
  obtain ⟨w1, w2⟩ := relaxFold_GInv alg p0 p1 (minEntry e es).2.2
    (get_neighbours (make_visited σ.s (minEntry e es).2.2) (minEntry e es).2.2 1)
    (make_visited σ.s (minEntry e es).2.2) (σ.queue.erase (minEntry e es))
    σ.index σ.log hGv hqv hnbs hcurB' w (by rw [hgv]; exact hcurg)
  rw [hσ']
  exact ⟨w1, w2⟩

/-- Shape, designations, colors and the Start cell's cleared parent after the
initialisation of `find_path`, together with the initial queue. -/
theorem initSearch_char (alg : Alg) (s0 : GState) (p0 p1 : Nat × Nat) (hwf : wf s0) :
    (initSearch alg s0 p0 p1).s.ROWS = s0.ROWS ∧
    (initSearch alg s0 p0 p1).s.COLUMNS = s0.COLUMNS ∧
    (initSearch alg s0 p0 p1).s.START = s0.START ∧
    (initSearch alg s0 p0 p1).s.END = s0.END ∧
    (∀ r, (nodeAt (initSearch alg s0 p0 p1).s r).color = (nodeAt s0 r).color) ∧
    (inB s0 p0 → (nodeAt (initSearch alg s0 p0 p1).s p0).parent_node = none) ∧
    (initSearch alg s0 p0 p1).queue =
      [(score alg (nodeAt (initSearch alg s0 p0 p1).s p0), 0, p0)] := by
  have hin : ∀ p ∈ allPositions s0, inB s0 p := fun p hp => mem_allPositions.mp hp
  obtain ⟨w1, w2, w3, w4, w5, w6⟩ :=
    cellwise_foldl (cellwise_initH p1) (allPositions s0) s0 hwf hin (allPositions_nodup s0)
  simp only [initSearch]
  refine ⟨?_, ?_, ?_, ?_, ?_, ?_, trivial⟩
  · rw [updNode_ROWS]; exact w2
  · rw [updNode_COLUMNS]; exact w3
  · rw [updNode_START]; exact w4
  · rw [updNode_END]; exact w5
  · intro r
    by_cases hr : r = p0
    · subst hr
      by_cases hb : inB s0 r
      · rw [nodeAt_updNode_self w1 (by simp only [inB, w2, w3]; exact hb),
          w6 r, if_pos (mem_allPositions.mpr hb)]
      · rw [nodeAt_updNode_out w1 (by simp only [inB, w2, w3]; exact hb),
          w6 r, if_neg (fun hm => hb (mem_allPositions.mp hm))]
    · rw [nodeAt_updNode_ne _ hr, w6 r]
      split <;> rfl
  · intro hb
    rw [nodeAt_updNode_self w1 (by simp only [inB, w2, w3]; exact hb),
      w6 p0, if_pos (mem_allPositions.mpr hb)]

/-- From a valid fresh grid, the initialisation establishes the search
invariant. -/
theorem initSearch_SInv {s0 : GState} {p0 p1 : Nat × Nat}
    (hV : ValidInit s0 p0 p1) (alg : Alg) :
    SInv p0 p1 (initSearch alg s0 p0 p1) := by
  obtain ⟨hR, hC, hS, hE, hcol, hpar, hque⟩ := initSearch_char alg s0 p0 p1 hV.hwf
  obtain ⟨hwf2, hg⟩ := initSearch_g alg s0 p0 p1 hV.hwf
  have hinB : ∀ r, inB (initSearch alg s0 p0 p1).s r ↔ inB s0 r := by
    intro r
    simp only [inB, hR, hC]
  have hob : ∀ r, is_obstacle (initSearch alg s0 p0 p1).s r = is_obstacle s0 r := by
    intro r
    simp only [is_obstacle, hcol r]
  have hg0 : (nodeAt (initSearch alg s0 p0 p1).s p0).g_score = GScore.fin 0 := by
    rw [hg p0, if_pos ⟨rfl, hV.hin0⟩]
  have hgelse : ∀ p, p ≠ p0 →
      (nodeAt (initSearch alg s0 p0 p1).s p).g_score = GScore.inf := by
    intro p hp
    rw [hg p, if_neg (fun hh => hp hh.1), hV.hginf p]
  refine ⟨⟨hwf2, ?_, ?_, (hinB p0).mpr hV.hin0, (hinB p1).mpr hV.hin1, hV.hne,
      hg0, hpar hV.hin0, ?_, ?_, ?_⟩, ?_⟩
  · rw [hS]; exact hV.hst
  · rw [hE]; exact hV.hen
  · intro p v hv
    by_cases hp : p = p0
    · subst hp
      rw [hg0] at hv
      simp only [GScore.fin.injEq] at hv
      omega
    · rw [hgelse p hp] at hv
      exact GScore.noConfusion hv
  · intro p v hpB hv
    rw [hob p]
    by_cases hp : p = p0
    · subst hp
      exact hV.hob0
    · rw [hgelse p hp] at hv
      exact GScore.noConfusion hv
  · intro p v hpB hv hpne
    rw [hgelse p hpne] at hv
    exact GScore.noConfusion hv
  · rw [hque]
    intro en hmem
    rw [List.mem_singleton] at hmem
    subst hmem
    exact ⟨(hinB p0).mpr hV.hin0, 0, hg0⟩

/-- A loop iteration announcing PathFound returns the grid of that moment
unchanged. -/
theorem stepSearch_pathFound {alg : Alg} {cancel : Nat → Bool} {σ : SState}
    {g : GState}
    (h : stepSearch alg cancel σ = StepOut.done SResult.pathFound g) :
    g = σ.s := by
  cases hq : σ.queue with
  | nil =>
      simp only [stepSearch, hq] at h
      injection h with h1 h2
      exact SResult.noConfusion h1
  | cons e es =>
      simp only [stepSearch, hq] at h
      by_cases hc : cancel σ.t
      · rw [if_pos hc] at h
        injection h with h1 h2
        exact SResult.noConfusion h1
      · rw [if_neg hc] at h
        by_cases hend : is_end σ.s (minEntry e es).2.2
        · rw [if_pos hend] at h
          injection h with h1 h2
          exact h2.symm
        · rw [if_neg hend] at h
          exact StepOut.noConfusion h

/-- The grid in which the loop announces PathFound satisfies the grid
invariant, whenever the loop was entered in an invariant state. -/
theorem searchLoop_pathFound {alg : Alg} {cancel : Nat → Bool}
    {p0 p1 : Nat × Nat} :
    ∀ (fuel : Nat) (σ : SState) (st : GState), SInv p0 p1 σ →
    searchLoop alg cancel fuel σ = some (SResult.pathFound, st) →
    GInv p0 p1 st := by
  intro fuel
  induction fuel with
  | zero =>
      intro σ st _ h
      simp only [searchLoop] at h
      exact Option.noConfusion h
  | succ n ih =>
      intro σ st hS h
      cases hstep : stepSearch alg cancel σ with
      | done r g =>
          simp only [searchLoop, hstep, Option.some_inj, Prod.mk.injEq] at h
          obtain ⟨h1, h2⟩ := h
          subst h1
          subst h2
          rw [stepSearch_pathFound hstep]
          exact hS.1
      | cont σ' =>
          simp only [searchLoop, hstep] at h
          exact ih σ' st (stepSearch_SInv hS hstep) h

/-- The final grid of every `find_path` run from a valid fresh grid that ends
in PathFound satisfies the grid invariant. -/
theorem find_path_pathFound_GInv {alg : Alg} {cancel : Nat → Bool}
    {fuel : Nat} {s0 : GState} {p0 p1 : Nat × Nat} {st : GState}
    (hV : ValidInit s0 p0 p1)
    (hrun : find_path alg cancel fuel s0 = some (SResult.pathFound, st)) :
    GInv p0 p1 st := by
  simp only [find_path, hV.hst, hV.hen] at hrun
  exact searchLoop_pathFound fuel (initSearch alg s0 p0 p1) st
    (initSearch_SInv hV alg) hrun

/-- The two-steps-left equation of the reconstruction walk. -/
theorem buildPath_two (s : GState) (n : Nat) (p : Nat × Nat) :
    buildPath s (n + 2) p =
      match (nodeAt s p).parent_node with
      | none => none
      | some q => (buildPath s (n + 1) q).map (fun l => l ++ [p]) := rfl

/-- The reconstruction walk along an exact parent chain: under the grid
invariant, walking `n` parent hops from a finite-g cell whose chain reaches
Start in exactly `n` hops succeeds and yields `n` cells, Start excluded,
ending at the walked cell, contiguous once Start is prepended, and free of
obstacles. -/
theorem buildPath_of_chain {p0 p1 : Nat × Nat} {st : GState}
    (hG : GInv p0 p1 st) :
    ∀ (n : Nat) (p : Nat × Nat) (v : Int), inB st p →
    (nodeAt st p).g_score = GScore.fin v →
    parentIter st n p = some p0 →
    ∃ path, buildPath st n p = some path ∧ path.length = n ∧
      Contiguous (p0 :: path) ∧ (∀ c ∈ path, is_obstacle st c = false) ∧
      (n = 0 ∨ path.getLast? = some p) ∧ p0 ∉ path := by
  intro n
  induction n using Nat.strong_induction_on with
  | _ n ih =>
    intro p v hpB hv hiter
    cases n with
    | zero =>
        simp only [parentIter, Option.some_inj] at hiter
        refine ⟨[], rfl, rfl, ?_, ?_, Or.inl rfl, ?_⟩
        · simp [Contiguous]
        · intro c hc
          simp at hc
        · simp
    | succ m =>
      cases m with
      | zero =>
          have hpar : (nodeAt st p).parent_node = some p0 := by
            cases hp : (nodeAt st p).parent_node with
            | none =>
                simp only [parentIter, hp] at hiter
                exact Option.noConfusion hiter
            | some q =>
                simp only [parentIter, hp, Option.some_inj] at hiter
                rw [hiter]
          have hne : p ≠ p0 := by
            intro hh
            subst hh
            rw [hG.hpar0] at hpar
            exact Option.noConfusion hpar
          obtain ⟨q, w, hq1, hq2, hq3, hq4, hq5⟩ := hG.chain p v hpB hv hne
          have hqp0 : q = p0 := by
            rw [hq1] at hpar
            exact Option.some_inj.mp hpar
          subst hqp0
          refine ⟨[p], rfl, rfl, ?_, ?_, Or.inr rfl, ?_⟩
          · exact List.chain'_pair.mpr hq3
          · intro c hc
            rw [List.mem_singleton] at hc
            subst hc
            exact hG.noObst c v hpB hv
          · intro hc
            rw [List.mem_singleton] at hc
            exact hne hc.symm
      | succ k =>
          have hne : p ≠ p0 := by
            intro hh
            subst hh
            simp only [parentIter, hG.hpar0] at hiter
            exact Option.noConfusion hiter
          obtain ⟨q, w, hq1, hq2, hq3, hq4, hq5⟩ := hG.chain p v hpB hv hne
          have hiter' : parentIter st (k + 1) q = some p0 := by
            simp only [parentIter, hq1] at hiter
            exact hiter
          obtain ⟨path', hb1, hb2, hb3, hb4, hb5, hb6⟩ :=
            ih (k + 1) (by omega) q w hq2 hq4 hiter'
          rcases hb5 with h0 | hlast
          · exact absurd h0 (by omega)
          have hlastq : (p0 :: path').getLast? = some q := by
            cases path' with
            | nil => simp at hb2
            | cons c cs =>
                rw [List.getLast?_cons_cons]
                exact hlast
          refine ⟨path' ++ [p], ?_, ?_, ?_, ?_, Or.inr ?_, ?_⟩
          · rw [show k + 1 + 1 = k + 2 from rfl]
            simp only [buildPath_two, hq1, hb1, Option.map_some']
          · simp [hb2]
          · refine List.chain'_append.mpr ⟨hb3, List.chain'_singleton p, ?_⟩
            intro x hx y hy
            rw [Option.mem_def, hlastq, Option.some_inj] at hx
            rw [Option.mem_def] at hy
            simp only [List.head?_cons, Option.some_inj] at hy
            rw [← hx, ← hy]
            exact hq3
          · intro c hc
            rw [List.mem_append] at hc
            rcases hc with hc | hc
            · exact hb4 c hc
            · rw [List.mem_singleton] at hc
              subst hc
              exact hG.noObst c v hpB hv
          · exact List.getLast?_concat _
          · intro hc
            rw [List.mem_append] at hc
            rcases hc with hc | hc
            · exact hb6 hc
            · rw [List.mem_singleton] at hc
              exact hne hc.symm

/-- C1 (amended): for every `find_path` run from a valid fresh grid that ends
in PathFound and whose final parent chain from End reaches Start in exactly
`g_score(End)` hops, the path reconstructor succeeds and produces exactly
`g_score(End)` cells — not `g_score(End) + 1`: the walk excludes Start
itself.  Prepending Start yields a contiguous 4-adjacent sequence, the
produced sequence ends at End, and none of its cells is an Obstacle.
(Without the chain-exactness condition the reconstruction can crash; a Greedy
run exhibits this in the counterexample.) -/
theorem C1_amended (alg : Alg) (cancel : Nat → Bool) (fuel : Nat)
    (s0 : GState) (p0 p1 : Nat × Nat) (st : GState) (v : Int)
    (hV : ValidInit s0 p0 p1)
    (hrun : find_path alg cancel fuel s0 = some (SResult.pathFound, st))
    (hg : (nodeAt st p1).g_score = GScore.fin v)
    (hexact : parentIter st v.toNat p1 = some p0) :
    ∃ path, draw_path st = some path ∧
      path.length = v.toNat ∧
      Contiguous (p0 :: path) ∧
      (∀ c ∈ path, is_obstacle st c = false) ∧
      (v.toNat = 0 ∨ path.getLast? = some p1) ∧
      p0 ∉ path := by
  have hG := find_path_pathFound_GInv hV hrun
  obtain ⟨path, hb1, hb2, hb3, hb4, hb5, hb6⟩ :=
    buildPath_of_chain hG v.toNat p1 v hG.hin1 hg hexact
  refine ⟨path, ?_, hb2, hb3, hb4, hb5, hb6⟩
  simp only [draw_path, hG.hen, hg]
  exact hb1

set_option maxRecDepth 40000

/-- Counterexample to C1 as stated: on the obstacle-free 2-by-2 grid the A*
run ends in PathFound with `g_score(End) = 2`, yet the reconstructor returns
2 cells — not `g_score(End) + 1 = 3` — and the sequence begins at `(1,0)`,
not at Start `(0,0)`; and on a 4-by-5 obstacle layout a Greedy run ends in
PathFound with `g_score(End) = 9` while the reconstruction crashes and yields
no sequence at all, the parent chain from End being shorter than
`g_score(End)`. -/
theorem C1_counterexample :
    (find_path Alg.astar (fun _ => false) 20 g22 =
      some (SResult.pathFound, st22)) ∧
    (nodeAt st22 (1, 1)).g_score = GScore.fin 2 ∧
    ((draw_path st22).map (fun path => (path.length, path.head?)) =
      some (2, some (1, 0))) ∧
    (find_path Alg.greedy (fun _ => false) 200 gGap =
      some (SResult.pathFound, stGap)) ∧
    (nodeAt stGap (2, 4)).g_score = GScore.fin 9 ∧
    draw_path stGap = none :=
  ⟨by decide, by decide, by decide, by decide, by decide, by decide⟩

/-- Witness for C1: the amended theorem instantiated on the A* run on the
2-by-2 grid, whose parent chain from End is exact. -/
theorem C1_witness :
    find_path Alg.astar (fun _ => false) 20 g22 =
      some (SResult.pathFound, st22) ∧
    ∃ path, draw_path st22 = some path ∧
      path.length = (2 : Int).toNat ∧
      Contiguous ((0, 0) :: path) ∧
      (∀ c ∈ path, is_obstacle st22 c = false) ∧
      ((2 : Int).toNat = 0 ∨ path.getLast? = some (1, 1)) ∧
      (0, 0) ∉ path :=
  ⟨by decide,
   C1_amended Alg.astar (fun _ => false) 20 g22 (0, 0) (1, 1) st22 2
     ⟨by decide, by decide, by decide, by decide, by decide, by decide,
      nodeAt_prop_of_flatten (P := fun nd => nd.g_score = GScore.inf) rfl
        (by decide),
      by decide, by decide⟩
     (by decide) (by decide) (by decide)⟩

/-! ## Claim C4 -/

set_option maxRecDepth 40000

/-- C4: on the obstacle-free 5-by-5 grid with Start `(0,0)` and End `(4,4)`,
all three algorithms terminate in PathFound with `g_score(End) = 8`. -/
theorem C4_five_by_five_length_eight :
    ((find_path Alg.astar (fun _ => false) 200 g55).map
      (fun r => (r.1, (nodeAt r.2 (4, 4)).g_score)) =
      some (SResult.pathFound, GScore.fin 8)) ∧
    ((find_path Alg.djikstra (fun _ => false) 200 g55).map
      (fun r => (r.1, (nodeAt r.2 (4, 4)).g_score)) =
      some (SResult.pathFound, GScore.fin 8)) ∧
    ((find_path Alg.greedy (fun _ => false) 200 g55).map
      (fun r => (r.1, (nodeAt r.2 (4, 4)).g_score)) =
      some (SResult.pathFound, GScore.fin 8)) := by
  refine ⟨by decide, by decide, by decide⟩

/-! ## Claim C3 -/

theorem getD_replicate {α : Type} (d a : α) : ∀ (n i : Nat),
    (List.replicate n a).getD i d = if i < n then a else d := by
  intro n
  induction n with
  | zero =>
      intro i
      rw [if_neg (by omega)]
      rfl
  | succ k ih =>
      intro i
      cases i with
      | zero =>
          rw [if_pos (by omega)]
          rfl
      | succ j =>
          rw [List.replicate, List.getD_cons_succ, ih j]
          by_cases h : j < k
          · rw [if_pos h, if_pos (by omega)]
          · rw [if_neg h, if_neg (by omega)]

theorem nodeAt_create_nodes (R C : Nat) (p : Nat × Nat) :
    nodeAt (create_nodes R C) p = initNode := by
  simp only [nodeAt, create_nodes]
  rw [getD_replicate]
  by_cases h1 : p.1 < R
  · rw [if_pos h1, getD_replicate]
    split <;> rfl
  · rw [if_neg h1]
    rfl

theorem wf_create_nodes (R C : Nat) : wf (create_nodes R C) := by
  constructor
  · simp [create_nodes]
  · intro row hrow
    simp only [create_nodes] at hrow
    rw [List.eq_of_mem_replicate hrow]
    simp [create_nodes]

theorem foldl_resetNode_dims (ps : List (Nat × Nat)) : ∀ s : GState,
    (ps.foldl resetNode s).ROWS = s.ROWS ∧
    (ps.foldl resetNode s).COLUMNS = s.COLUMNS := by
  induction ps with
  | nil => intro s; exact ⟨rfl, rfl⟩
  | cons p ps ih =>
      intro s
      rw [List.foldl_cons]
      obtain ⟨h1, h2⟩ := ih (resetNode s p)
      exact ⟨h1.trans (resetNode_ROWS s p), h2.trans (resetNode_COLUMNS s p)⟩

theorem wf_foldl_resetNode (ps : List (Nat × Nat)) : ∀ s : GState, wf s →
    wf (ps.foldl resetNode s) := by
  induction ps with
  | nil => intro s h; exact h
  | cons p ps ih =>
      intro s h
      rw [List.foldl_cons]
      exact ih _ (wf_resetNode h p)

theorem mem_get_neighbours_two {s : GState} {p q : Nat × Nat} (hp : inB s p)
    (hq : q ∈ get_neighbours s p 2) :
    inB s q ∧
    ((2 ≤ p.1 ∧ q = (p.1 - 2, p.2)) ∨ (2 ≤ p.2 ∧ q = (p.1, p.2 - 2)) ∨
     (p.1 + 2 < s.ROWS ∧ q = (p.1 + 2, p.2)) ∨
     (p.2 + 2 < s.COLUMNS ∧ q = (p.1, p.2 + 2))) := by
  obtain ⟨hp1, hp2⟩ := hp
  have hsplit : ∀ (c : Prop) (inst : Decidable c) (x : Nat × Nat),
      q ∈ (if c then [x] else ([] : List (Nat × Nat))) → c ∧ q = x := by
    intro c inst x h
    split at h
    · simp only [List.mem_singleton] at h
      exact ⟨by assumption, h⟩
    · simp at h
  simp only [get_neighbours, List.mem_append] at hq
  rcases hq with ((h | h) | h) | h
  all_goals obtain ⟨hb, rfl⟩ := hsplit _ _ _ h
  · exact ⟨⟨by omega, hp2⟩, Or.inl ⟨by omega, rfl⟩⟩
  · exact ⟨⟨hp1, by omega⟩, Or.inr (Or.inl ⟨by omega, rfl⟩)⟩
  · exact ⟨⟨by omega, hp2⟩, Or.inr (Or.inr (Or.inl ⟨by omega, rfl⟩))⟩
  · exact ⟨⟨hp1, by omega⟩, Or.inr (Or.inr (Or.inr ⟨by omega, rfl⟩))⟩

theorem get_neighbours_mem_down {s : GState} (p : Nat × Nat) (n : Nat)
    (h : p.1 < s.ROWS - n) : (p.1 + n, p.2) ∈ get_neighbours s p n := by
  simp only [get_neighbours, List.mem_append]
  refine Or.inl (Or.inr ?_)
  rw [if_pos h]
  exact List.mem_singleton.mpr rfl

theorem get_neighbours_mem_right {s : GState} (p : Nat × Nat) (n : Nat)
    (h : p.2 < s.COLUMNS - n) : (p.1, p.2 + n) ∈ get_neighbours s p n := by
  simp only [get_neighbours, List.mem_append]
  refine Or.inr ?_
  rw [if_pos h]
  exact List.mem_singleton.mpr rfl

theorem get_neighbours_congr {s s' : GState} (h1 : s'.ROWS = s.ROWS)
    (h2 : s'.COLUMNS = s.COLUMNS) (p : Nat × Nat) (n : Nat) :
    get_neighbours s' p n = get_neighbours s p n := by
  simp only [get_neighbours, h1, h2]

theorem adjacent_mem_adjCands {p q : Nat × Nat} (h : adjacent p q) :
    q ∈ adjCands p := by
  obtain ⟨p1, p2⟩ := p
  obtain ⟨q1, q2⟩ := q
  simp only [adjacent] at h
  simp only [adjCands, List.mem_cons, List.not_mem_nil, or_false, Prod.mk.injEq]
  omega

theorem countP_lt_of_mem {α : Type} {l : List α} {f g : α → Bool} {a : α}
    (ha : a ∈ l) (hmono : ∀ x ∈ l, g x = true → f x = true)
    (hfa : f a = true) (hga : g a = false) :
    l.countP g < l.countP f := by
  obtain ⟨l1, l2, rfl⟩ := List.append_of_mem ha
  rw [List.countP_append, List.countP_append, List.countP_cons, List.countP_cons]
  have m1 : l1.countP g ≤ l1.countP f :=
    List.countP_mono_left (fun x hx hgx => hmono x (by simp [hx]) hgx)
  have m2 : l2.countP g ≤ l2.countP f :=
    List.countP_mono_left (fun x hx hgx =>
      hmono x (by simp [List.mem_append, hx]) hgx)
  simp [hfa, hga]
  omega

theorem allPositions_length (s : GState) :
    (allPositions s).length = s.ROWS * s.COLUMNS := by
  have : ∀ (R C : Nat),
      ((List.range R).flatMap
        (fun r => (List.range C).map (fun c => (r, c)))).length = R * C := by
    intro R C
    induction R with
    | zero => simp
    | succ k ih =>
        rw [List.range_succ, List.flatMap_append, List.length_append, ih]
        simp [Nat.succ_mul]
  exact this s.ROWS s.COLUMNS

theorem greyCount_congr {s s' : GState} (hR : s'.ROWS = s.ROWS)
    (hC : s'.COLUMNS = s.COLUMNS)
    (hcol : ∀ p, (nodeAt s' p).color = (nodeAt s p).color) :
    greyCount s' = greyCount s := by
  have hAP : allPositions s' = allPositions s := by
    simp only [allPositions, hR, hC]
  rw [greyCount, greyCount, hAP]
  have : ∀ (l : List (Nat × Nat)),
      l.countP (fun p => is_obstacle s' p) = l.countP (fun p => is_obstacle s p) := by
    intro l
    induction l with
    | nil => rfl
    | cons a t ih =>
        rw [List.countP_cons, List.countP_cons, ih]
        simp [is_obstacle, hcol a]
  exact this _

theorem wreach_mono {s s' : GState} (hR : s'.ROWS = s.ROWS)
    (hC : s'.COLUMNS = s.COLUMNS)
    (hw : ∀ q, inB s q → (nodeAt s q).color = Col.white →
      (nodeAt s' q).color = Col.white) :
    ∀ p, WReach s p → WReach s' p := by
  intro p h
  induction h with
  | base => exact WReach.base
  | step hh hadj hq hcw ih =>
      exact WReach.step ih hadj (by simp only [inB, hR, hC]; exact hq) (hw _ hq hcw)

theorem not_reachNO_of_separating {s : GState} {src tgt : Nat × Nat}
    (L : List (Nat × Nat)) (hsrc : src ∈ L)
    (hclosed : ∀ p ∈ L, ∀ q, adjacent p q → inB s q →
      is_obstacle s q = false → q ∈ L)
    (htgt : tgt ∉ L) : ¬ ReachNO s src tgt := by
  intro h
  have hall : ∀ p, ReachNO s src p → p ∈ L := by
    intro p hp
    induction hp with
    | base h1 h2 => exact hsrc
    | step hh hadj hq hob ih => exact hclosed _ ih _ hadj hq hob
  exact htgt (hall tgt h)

theorem wreach_reachNO {sf s5 : GState} (hR : s5.ROWS = sf.ROWS)
    (hC : s5.COLUMNS = sf.COLUMNS) (h00 : inB sf (0, 0))
    (hob : ∀ q, inB sf q → (nodeAt sf q).color = Col.white →
      is_obstacle s5 q = false)
    (hob0 : is_obstacle s5 (0, 0) = false) :
    ∀ p, WReach sf p → ReachNO s5 (0, 0) p := by
  intro p h
  induction h with
  | base => exact ReachNO.base (by simp only [inB, hR, hC]; exact h00) hob0
  | step hh hadj hq hcw ih =>
      exact ReachNO.step ih hadj (by simp only [inB, hR, hC]; exact hq) (hob _ hq hcw)

theorem make_active_char {s : GState} (hwf : wf s) (p : Nat × Nat) :
    (make_active s p).ROWS = s.ROWS ∧ (make_active s p).COLUMNS = s.COLUMNS ∧
    (make_active s p).START = s.START ∧ (make_active s p).END = s.END ∧
    wf (make_active s p) ∧
    (∀ r, r ≠ p → nodeAt (make_active s p) r = nodeAt s r) ∧
    (inB s p → nodeAt (make_active s p) p =
      { nodeAt s p with color := Col.green, needs_refresh := true }) :=
  ⟨rfl, rfl, rfl, rfl, wf_updNode hwf _ _,
   fun r hr => nodeAt_updNode_ne _ hr _, fun hb => nodeAt_updNode_self hwf hb _⟩

theorem make_start_eq {s : GState} (p : Nat × Nat) (h : is_end s p = false) :
    make_start s p =
      { updNode s p (fun nd => { nd with color := Col.blue, needs_refresh := true })
        with START := some p } := by
  rw [make_start, if_neg (by simp [h])]

theorem make_start_char {s : GState} (hwf : wf s) (p : Nat × Nat)
    (h : is_end s p = false) :
    (make_start s p).ROWS = s.ROWS ∧ (make_start s p).COLUMNS = s.COLUMNS ∧
    (make_start s p).START = some p ∧ (make_start s p).END = s.END ∧
    wf (make_start s p) ∧
    (∀ r, r ≠ p → nodeAt (make_start s p) r = nodeAt s r) ∧
    (inB s p → nodeAt (make_start s p) p =
      { nodeAt s p with color := Col.blue, needs_refresh := true }) := by
  rw [make_start_eq p h]
  exact ⟨rfl, rfl, rfl, rfl,
    wf_updNode hwf p (fun nd => { nd with color := Col.blue, needs_refresh := true }),
    fun r hr => nodeAt_updNode_ne s hr
      (fun nd => { nd with color := Col.blue, needs_refresh := true }),
    fun hb => nodeAt_updNode_self hwf hb
      (fun nd => { nd with color := Col.blue, needs_refresh := true })⟩

theorem make_end_eq {s : GState} (p : Nat × Nat) (h : is_start s p = false) :
    make_end s p =
      { updNode s p (fun nd => { nd with color := Col.cyan, needs_refresh := true })
        with END := some p } := by
  rw [make_end, if_neg (by simp [h])]

theorem make_end_char {s : GState} (hwf : wf s) (p : Nat × Nat)
    (h : is_start s p = false) :
    (make_end s p).ROWS = s.ROWS ∧ (make_end s p).COLUMNS = s.COLUMNS ∧
    (make_end s p).START = s.START ∧ (make_end s p).END = some p ∧
    wf (make_end s p) ∧
    (∀ r, r ≠ p → nodeAt (make_end s p) r = nodeAt s r) ∧
    (inB s p → nodeAt (make_end s p) p =
      { nodeAt s p with color := Col.cyan, needs_refresh := true }) := by
  rw [make_end_eq p h]
  exact ⟨rfl, rfl, rfl, rfl,
    wf_updNode hwf p (fun nd => { nd with color := Col.cyan, needs_refresh := true }),
    fun r hr => nodeAt_updNode_ne s hr
      (fun nd => { nd with color := Col.cyan, needs_refresh := true }),
    fun hb => nodeAt_updNode_self hwf hb
      (fun nd => { nd with color := Col.cyan, needs_refresh := true })⟩

theorem getD_mem {α : Type} : ∀ (l : List α) (i : Nat) (d : α),
    i < l.length → l.getD i d ∈ l := by
  intro l
  induction l with
  | nil =>
      intro i d h
      simp at h
  | cons a t ih =>
      intro i d h
      cases i with
      | zero => exact List.mem_cons_self _ _
      | succ j =>
          rw [List.getD_cons_succ]
          exact List.mem_cons_of_mem _ (ih j d (by simpa using h))

/-- One carving iteration preserves the maze invariant, strictly decreases
the termination potential, and keeps the grid dimensions. -/
theorem mazeStep_MInv {s : GState} {cur : Nat × Nat} {rest : List (Nat × Nat)}
    (hM : MInv s (cur :: rest)) (ch : Nat → Nat) (t : Nat) :
    MInv (mazeStep ch t s cur rest).1 (mazeStep ch t s cur rest).2.1 ∧
    mazePot (mazeStep ch t s cur rest).1 (mazeStep ch t s cur rest).2.1 <
      mazePot s (cur :: rest) ∧
    (mazeStep ch t s cur rest).1.ROWS = s.ROWS ∧
    (mazeStep ch t s cur rest).1.COLUMNS = s.COLUMNS := by
  obtain ⟨hcurB, hcE1, hcE2, hcW⟩ := hM.stackIn cur (List.mem_cons_self _ _)
  obtain ⟨aR, aC, aS, aE, awf, ane, aself⟩ := make_active_char hM.hwf cur
  have hcurB1 : inB (make_active s cur) cur := by
    simp only [inB, aR, aC]
    exact hcurB
  have h2wf : wf (resetNode (make_active s cur) cur) := wf_resetNode awf cur
  have h2R : (resetNode (make_active s cur) cur).ROWS = s.ROWS := by
    rw [resetNode_ROWS]
    exact aR
  have h2C : (resetNode (make_active s cur) cur).COLUMNS = s.COLUMNS := by
    rw [resetNode_COLUMNS]
    exact aC
  have h2S : (resetNode (make_active s cur) cur).START = none := by
    rw [resetNode_START_cases, aS, hM.hst]
    split <;> rfl
  have h2E : (resetNode (make_active s cur) cur).END = none := by
    rw [resetNode_END_cases, aE, hM.hen]
    split <;> rfl
  have h2colcur : (nodeAt (resetNode (make_active s cur) cur) cur).color =
      Col.white := by
    rw [nodeAt_resetNode_self awf hcurB1]
    rfl
  have h2col : ∀ r, (nodeAt (resetNode (make_active s cur) cur) r).color =
      (nodeAt s r).color := by
    intro r
    by_cases hr : r = cur
    · subst hr
      rw [h2colcur, hcW]
    · rw [nodeAt_resetNode_ne _ hr, ane r hr]
  simp only [mazeStep]
  set s2 := resetNode (make_active s cur) cur with hs2
  have h2in : ∀ r, inB s2 r ↔ inB s r := by
    intro r
    simp only [inB, h2R, h2C]
  cases hnbs : (get_neighbours s2 cur 2).filter (fun q => ¬ is_normal s2 q) with
  | nil =>
      dsimp only
      have hback : ∀ q ∈ get_neighbours s2 cur 2, is_normal s2 q = true := by
        intro q hq
        by_contra hqq
        have hmem : q ∈ (get_neighbours s2 cur 2).filter
            (fun q => ¬ is_normal s2 q) := by
          rw [List.mem_filter]
          exact ⟨hq, by simp [hqq]⟩
        rw [hnbs] at hmem
        exact absurd hmem (List.not_mem_nil q)
      have hg : greyCount s2 = greyCount s := greyCount_congr h2R h2C h2col
      refine ⟨⟨h2wf, by rw [h2R]; exact hM.hR, by rw [h2C]; exact hM.hC, h2S, h2E,
        ?_, ?_, ?_, ?_, ?_⟩, ?_, h2R, h2C⟩
      · intro p hp
        rw [h2col p]
        exact hM.colWG p ((h2in p).mp hp)
      · intro p hp
        obtain ⟨b1, b2, b3, b4⟩ := hM.stackIn p (List.mem_cons_of_mem _ hp)
        exact ⟨(h2in p).mpr b1, b2, b3, by rw [h2col p]; exact b4⟩
      · rw [h2col (0, 0)]
        exact hM.origin
      · intro p hp hw
        exact wreach_mono h2R h2C (fun q _ hqw => by rw [h2col q]; exact hqw) p
          (hM.conn p ((h2in p).mp hp) (by rw [← h2col p]; exact hw))
      · intro p hp he1 he2 hw
        by_cases hpc : p = cur
        · subst hpc
          right
          intro q hq
          have := hback q hq
          simpa [is_normal] using this
        · have hw' : (nodeAt s p).color = Col.white := by
            rw [← h2col p]
            exact hw
          rcases hM.frontier p ((h2in p).mp hp) he1 he2 hw' with hmem | hall
          · rcases List.mem_cons.mp hmem with h | h
            · exact absurd h hpc
            · exact Or.inl h
          · right
            intro q hq
            rw [h2col q]
            exact hall q (by rw [get_neighbours_congr h2R h2C] at hq; exact hq)
      · simp only [mazePot, hg, List.length_cons]
        omega
  | cons nb l =>
      dsimp only
      set nxt := (nb :: l).getD (ch t % (nb :: l).length) (0, 0) with hnxtdef
      set wall := ((cur.1 + nxt.1) / 2, (cur.2 + nxt.2) / 2) with hwalldef
      have hlen : ch t % (nb :: l).length < (nb :: l).length :=
        Nat.mod_lt _ (by simp)
      have hnmem : nxt ∈ nb :: l := by
        rw [hnxtdef]
        exact getD_mem _ _ _ hlen
      have hnfil : nxt ∈ (get_neighbours s2 cur 2).filter
          (fun q => ¬ is_normal s2 q) := by
        rw [hnbs]
        exact hnmem
      obtain ⟨hngn, hnf⟩ := List.mem_filter.mp hnfil
      have hnnorm : is_normal s2 nxt = false :=
        Bool.eq_false_iff.mpr (of_decide_eq_true hnf)
      have hcurB2 : inB s2 cur := (h2in cur).mpr hcurB
      obtain ⟨hnB2, hcases⟩ := mem_get_neighbours_two hcurB2 hngn
      have hnB : inB s nxt := (h2in nxt).mp hnB2
      have hngrey : (nodeAt s nxt).color = Col.grey := by
        have h1 : (nodeAt s2 nxt).color ≠ Col.white := by
          intro hh
          have h2 : is_normal s2 nxt = true := by simp [is_normal, hh]
          rw [hnnorm] at h2
          exact Bool.noConfusion h2
        rw [h2col nxt] at h1
        rcases hM.colWG nxt hnB with h | h
        · exact absurd h h1
        · exact h
      rw [h2R, h2C] at hcases
      have hgeo : Even nxt.1 ∧ Even nxt.2 ∧ inB s wall ∧ adjacent cur wall ∧
          adjacent wall nxt ∧ (¬ Even wall.1 ∨ ¬ Even wall.2) := by
        obtain ⟨a1, ha1⟩ := hcE1
        obtain ⟨a2, ha2⟩ := hcE2
        obtain ⟨hb1, hb2⟩ := hcurB
        obtain ⟨hnb1, hnb2⟩ := hnB
        rcases hcases with ⟨hc, he⟩ | ⟨hc, he⟩ | ⟨hc, he⟩ | ⟨hc, he⟩
        · have hn1 : nxt.1 = cur.1 - 2 := by rw [he]
          have hn2 : nxt.2 = cur.2 := by rw [he]
          have hw1 : wall.1 = cur.1 - 1 := by
            rw [hwalldef]
            dsimp only
            rw [hn1]
            omega
          have hw2 : wall.2 = cur.2 := by
            rw [hwalldef]
            dsimp only
            rw [hn2]
            omega
          exact ⟨⟨a1 - 1, by omega⟩, ⟨a2, by omega⟩, ⟨by omega, by omega⟩,
            Or.inr ⟨by omega, Or.inl (by omega)⟩,
            Or.inr ⟨by omega, Or.inl (by omega)⟩,
            Or.inl (by intro hh; obtain ⟨b, hbe⟩ := hh; omega)⟩
        · have hn1 : nxt.1 = cur.1 := by rw [he]
          have hn2 : nxt.2 = cur.2 - 2 := by rw [he]
          have hw1 : wall.1 = cur.1 := by
            rw [hwalldef]
            dsimp only
            rw [hn1]
            omega
          have hw2 : wall.2 = cur.2 - 1 := by
            rw [hwalldef]
            dsimp only
            rw [hn2]
            omega
          exact ⟨⟨a1, by omega⟩, ⟨a2 - 1, by omega⟩, ⟨by omega, by omega⟩,
            Or.inl ⟨by omega, Or.inl (by omega)⟩,
            Or.inl ⟨by omega, Or.inl (by omega)⟩,
            Or.inr (by intro hh; obtain ⟨b, hbe⟩ := hh; omega)⟩
        · have hn1 : nxt.1 = cur.1 + 2 := by rw [he]
          have hn2 : nxt.2 = cur.2 := by rw [he]
          have hw1 : wall.1 = cur.1 + 1 := by
            rw [hwalldef]
            dsimp only
            rw [hn1]
            omega
          have hw2 : wall.2 = cur.2 := by
            rw [hwalldef]
            dsimp only
            rw [hn2]
            omega
          exact ⟨⟨a1 + 1, by omega⟩, ⟨a2, by omega⟩, ⟨by omega, by omega⟩,
            Or.inr ⟨by omega, Or.inr (by omega)⟩,
            Or.inr ⟨by omega, Or.inr (by omega)⟩,
            Or.inl (by intro hh; obtain ⟨b, hbe⟩ := hh; omega)⟩
        · have hn1 : nxt.1 = cur.1 := by rw [he]
          have hn2 : nxt.2 = cur.2 + 2 := by rw [he]
          have hw1 : wall.1 = cur.1 := by
            rw [hwalldef]
            dsimp only
            rw [hn1]
            omega
          have hw2 : wall.2 = cur.2 + 1 := by
            rw [hwalldef]
            dsimp only
            rw [hn2]
            omega
          exact ⟨⟨a1, by omega⟩, ⟨a2 + 1, by omega⟩, ⟨by omega, by omega⟩,
            Or.inl ⟨by omega, Or.inr (by omega)⟩,
            Or.inl ⟨by omega, Or.inr (by omega)⟩,
            Or.inr (by intro hh; obtain ⟨b, hbe⟩ := hh; omega)⟩
      obtain ⟨hnE1, hnE2, hwB, hadjcw, hadjwn, hwodd⟩ := hgeo
      have hwB2 : inB s2 wall := (h2in wall).mpr hwB
      set s3 := resetNode s2 wall with hs3
      set s4 := resetNode s3 nxt with hs4
      have h3wf : wf s3 := by
        rw [hs3]
        exact wf_resetNode h2wf wall
      have h3R : s3.ROWS = s.ROWS := by rw [hs3, resetNode_ROWS, h2R]
      have h3C : s3.COLUMNS = s.COLUMNS := by rw [hs3, resetNode_COLUMNS, h2C]
      have h3S : s3.START = none := by
        rw [hs3, resetNode_START_cases, h2S]
        split <;> rfl
      have h3E : s3.END = none := by
        rw [hs3, resetNode_END_cases, h2S, h2E]
        split <;> rfl
      have h3col : ∀ r, (nodeAt s3 r).color =
          if r = wall then Col.white else (nodeAt s2 r).color := by
        intro r
        by_cases hr : r = wall
        · subst hr
          rw [if_pos rfl, hs3, nodeAt_resetNode_self h2wf hwB2]
          rfl
        · rw [if_neg hr, hs3, nodeAt_resetNode_ne _ hr]
      have hnB3 : inB s3 nxt := by
        simp only [inB, h3R, h3C]
        exact hnB
      have h4wf : wf s4 := by
        rw [hs4]
        exact wf_resetNode h3wf nxt
      have h4R : s4.ROWS = s.ROWS := by rw [hs4, resetNode_ROWS, h3R]
      have h4C : s4.COLUMNS = s.COLUMNS := by rw [hs4, resetNode_COLUMNS, h3C]
      have h4S : s4.START = none := by
        rw [hs4, resetNode_START_cases, h3S]
        split <;> rfl
      have h4E : s4.END = none := by
        rw [hs4, resetNode_END_cases, h3S, h3E]
        split <;> rfl
      have h4col : ∀ r, (nodeAt s4 r).color =
          if r = nxt ∨ r = wall then Col.white else (nodeAt s r).color := by
        intro r
        by_cases hr : r = nxt
        · rw [if_pos (Or.inl hr)]
          subst hr
          rw [hs4, nodeAt_resetNode_self h3wf hnB3]
          rfl
        · rw [hs4, nodeAt_resetNode_ne _ hr, h3col r]
          by_cases hr2 : r = wall
          · rw [if_pos hr2, if_pos (Or.inr hr2)]
          · rw [if_neg hr2, if_neg (fun hh => hh.elim hr hr2), h2col r]
      have h4in : ∀ r, inB s4 r ↔ inB s r := by
        intro r
        simp only [inB, h4R, h4C]
      have hwhite4 : ∀ r, (nodeAt s r).color = Col.white →
          (nodeAt s4 r).color = Col.white := by
        intro r hrw
        rw [h4col r]
        split
        · rfl
        · exact hrw
      have hW4 : ∀ p, WReach s p → WReach s4 p :=
        wreach_mono h4R h4C (fun q _ hq => hwhite4 q hq)
      have hwadj : WReach s4 wall := by
        refine WReach.step (hW4 cur (hM.conn cur hcurB hcW)) hadjcw
          ((h4in wall).mpr hwB) ?_
        rw [h4col wall, if_pos (Or.inr rfl)]
      have hnreach : WReach s4 nxt := by
        refine WReach.step hwadj hadjwn ((h4in nxt).mpr hnB) ?_
        rw [h4col nxt, if_pos (Or.inl rfl)]
      refine ⟨⟨h4wf, by rw [h4R]; exact hM.hR, by rw [h4C]; exact hM.hC, h4S, h4E,
        ?_, ?_, ?_, ?_, ?_⟩, ?_, h4R, h4C⟩
      · intro p hp
        rw [h4col p]
        split
        · exact Or.inl rfl
        · exact hM.colWG p ((h4in p).mp hp)
      · intro p hp
        rcases List.mem_cons.mp hp with h | hp2
        · subst h
          exact ⟨(h4in nxt).mpr hnB, hnE1, hnE2,
            by rw [h4col nxt, if_pos (Or.inl rfl)]⟩
        · rcases List.mem_cons.mp hp2 with h | h
          · subst h
            exact ⟨(h4in p).mpr hcurB, hcE1, hcE2, hwhite4 p hcW⟩
          · obtain ⟨b1, b2, b3, b4⟩ := hM.stackIn p (List.mem_cons_of_mem _ h)
            exact ⟨(h4in p).mpr b1, b2, b3, hwhite4 p b4⟩
      · rw [h4col (0, 0)]
        split
        · rfl
        · exact hM.origin
      · intro p hp hpw
        by_cases h1 : p = nxt
        · subst h1
          exact hnreach
        · by_cases h2 : p = wall
          · subst h2
            exact hwadj
          · rw [h4col p, if_neg (fun hh => hh.elim h1 h2)] at hpw
            exact hW4 p (hM.conn p ((h4in p).mp hp) hpw)
      · intro p hp hpe1 hpe2 hpw
        by_cases h1 : p = nxt
        · exact Or.inl (by rw [h1]; exact List.mem_cons_self _ _)
        · by_cases h2 : p = wall
          · exfalso
            rcases hwodd with hh | hh
            · exact hh (by rw [← h2]; exact hpe1)
            · exact hh (by rw [← h2]; exact hpe2)
          · have hpw' : (nodeAt s p).color = Col.white := by
              rw [h4col p, if_neg (fun hh => hh.elim h1 h2)] at hpw
              exact hpw
            rcases hM.frontier p ((h4in p).mp hp) hpe1 hpe2 hpw' with hmem | hall
            · exact Or.inl (List.mem_cons_of_mem _ hmem)
            · right
              intro q hq
              rw [get_neighbours_congr h4R h4C] at hq
              rw [h4col q]
              split
              · rfl
              · exact hall q hq
      · have hgrey : greyCount s4 < greyCount s := by
          have hap : allPositions s4 = allPositions s := by
            simp only [allPositions, h4R, h4C]
          rw [greyCount, greyCount, hap]
          refine countP_lt_of_mem (mem_allPositions.mpr hnB) ?_ ?_ ?_
          · intro x hx hgx
            have hgc : (nodeAt s4 x).color = Col.grey := by
              simpa [is_obstacle] using hgx
            rw [h4col x] at hgc
            split at hgc
            · exact absurd hgc (by simp)
            · simpa [is_obstacle] using hgc
          · simpa [is_obstacle] using hngrey
          · have hwn : (nodeAt s4 nxt).color = Col.white := by
              rw [h4col nxt, if_pos (Or.inl rfl)]
            simp [is_obstacle, hwn]
        simp only [mazePot, List.length_cons]
        omega

/-- Given enough fuel (the potential bounds the iteration count), the carving
loop drains the stack and maintains the maze invariant. -/
theorem mazeLoop_MInv (ch : Nat → Nat) :
    ∀ (fuel t : Nat) (s : GState) (active : List (Nat × Nat)),
    MInv s active → mazePot s active < fuel →
    MInv (mazeLoop ch fuel t s active).1 [] ∧
    (mazeLoop ch fuel t s active).2 = [] ∧
    (mazeLoop ch fuel t s active).1.ROWS = s.ROWS ∧
    (mazeLoop ch fuel t s active).1.COLUMNS = s.COLUMNS := by
  intro fuel
  induction fuel with
  | zero =>
      intro t s active hM hpot
      exact absurd hpot (by omega)
  | succ n ih =>
      intro t s active hM hpot
      cases active with
      | nil =>
          have he : mazeLoop ch (n + 1) t s [] = (s, []) := by
            simp only [mazeLoop]
          rw [he]
          exact ⟨hM, rfl, rfl, rfl⟩
      | cons cur rest =>
          obtain ⟨hM4, hpot4, hR4, hC4⟩ := mazeStep_MInv hM ch t
          have hrec := ih (mazeStep ch t s cur rest).2.2 (mazeStep ch t s cur rest).1
            (mazeStep ch t s cur rest).2.1 hM4 (by omega)
          simp only [mazeLoop]
          exact ⟨hrec.1, hrec.2.1, hrec.2.2.1.trans hR4, hrec.2.2.2.trans hC4⟩

/-- With an empty stack, the maze invariant forces every even-even cell to be
carved: the whiteness spreads from the origin along the even lattice. -/
theorem maze_complete {s : GState} (hM : MInv s []) :
    ∀ i, 2 * i < s.ROWS → ∀ j, 2 * j < s.COLUMNS →
    (nodeAt s (2 * i, 2 * j)).color = Col.white := by
  have hRp : 1 ≤ s.ROWS := hM.hR
  have hCp : 1 ≤ s.COLUMNS := hM.hC
  have hnbr : ∀ p, inB s p → Even p.1 → Even p.2 →
      (nodeAt s p).color = Col.white →
      ∀ q ∈ get_neighbours s p 2, (nodeAt s q).color = Col.white := by
    intro p hp h1 h2 hw
    rcases hM.frontier p hp h1 h2 hw with h | h
    · exact absurd h (List.not_mem_nil p)
    · exact h
  have hcol0 : ∀ i, 2 * i < s.ROWS → (nodeAt s (2 * i, 0)).color = Col.white := by
    intro i
    induction i with
    | zero =>
        intro _
        simpa using hM.origin
    | succ k ih =>
        intro h
        have hk : 2 * k < s.ROWS := by omega
        have hq := hnbr (2 * k, 0) ⟨hk, by dsimp only; omega⟩
          ⟨k, by dsimp only; omega⟩ ⟨0, rfl⟩
          (ih hk) (2 * k + 2, 0)
          (get_neighbours_mem_down (2 * k, 0) 2 (show 2 * k < s.ROWS - 2 by omega))
        have he : 2 * (k + 1) = 2 * k + 2 := by omega
        rw [he]
        exact hq
  intro i hi j
  induction j with
  | zero =>
      intro _
      exact hcol0 i hi
  | succ m ihm =>
      intro hj
      have hm : 2 * m < s.COLUMNS := by omega
      have hq := hnbr (2 * i, 2 * m) ⟨hi, hm⟩ ⟨i, by dsimp only; omega⟩
        ⟨m, by dsimp only; omega⟩
        (ihm hm) (2 * i, 2 * m + 2)
        (get_neighbours_mem_right (2 * i, 2 * m) 2
          (show 2 * m < s.COLUMNS - 2 by omega))
      have he : 2 * (m + 1) = 2 * m + 2 := by omega
      rw [he]
      exact hq

/-- After the mode-0 reset of a fresh grid: still well formed, dimensions
kept, no designations. -/
theorem maze_base_facts (R C : Nat) {s1 : GState}
    (h : s1 = (allPositions (create_nodes R C)).foldl resetNode (create_nodes R C)) :
    wf s1 ∧ s1.ROWS = R ∧ s1.COLUMNS = C ∧ s1.START = none ∧ s1.END = none := by
  subst h
  refine ⟨wf_foldl_resetNode _ _ (wf_create_nodes R C), ?_, ?_, ?_, ?_⟩
  · rw [(foldl_resetNode_dims _ _).1]
    rfl
  · rw [(foldl_resetNode_dims _ _).2]
    rfl
  · rcases foldl_resetNode_START_or (allPositions (create_nodes R C))
      (create_nodes R C) with hh | hh
    · rw [hh]; rfl
    · exact hh
  · rcases foldl_resetNode_END_or (allPositions (create_nodes R C))
      (create_nodes R C) with hh | hh
    · rw [hh]; rfl
    · exact hh

/-- After the make-everything-an-obstacle pass: every in-range cell grey. -/
theorem maze_obst_facts (R C : Nat) {s1 s2 : GState}
    (h1 : s1 = (allPositions (create_nodes R C)).foldl resetNode (create_nodes R C))
    (h2 : s2 = (allPositions s1).foldl make_obstacle s1) :
    wf s2 ∧ s2.ROWS = R ∧ s2.COLUMNS = C ∧ s2.START = none ∧ s2.END = none ∧
    (∀ q, inB s2 q → (nodeAt s2 q).color = Col.grey) := by
  obtain ⟨h1wf, h1R, h1C, h1S, h1E⟩ := maze_base_facts R C h1
  obtain ⟨w1, w2, w3, w4, w5, w6⟩ := cellwise_foldl cellwise_make_obstacle
    (allPositions s1) s1 h1wf (fun p hp => mem_allPositions.mp hp)
    (allPositions_nodup s1)
  subst h2
  refine ⟨w1, w2.trans h1R, w3.trans h1C, w4.trans h1S, w5.trans h1E, ?_⟩
  intro q hq
  have hq1 : inB s1 q := by
    simp only [inB, w2, w3] at hq
    exact hq
  rw [w6 q, if_pos (mem_allPositions.mpr hq1),
    if_pos ⟨by rw [h1E]; simp, by rw [h1S]; simp⟩]

/-- After carving out the origin: the maze invariant holds with the origin on
the stack, and the potential is below the fuel used by `generate_maze`. -/
theorem maze_init (R C : Nat) (hR : 1 ≤ R) (hC : 1 ≤ C) {s1 s2 s3 : GState}
    (h1 : s1 = (allPositions (create_nodes R C)).foldl resetNode (create_nodes R C))
    (h2 : s2 = (allPositions s1).foldl make_obstacle s1)
    (h3 : s3 = resetNode s2 (0, 0)) :
    MInv s3 [(0, 0)] ∧ s3.ROWS = R ∧ s3.COLUMNS = C ∧
    mazePot s3 [(0, 0)] < 2 * s3.ROWS * s3.COLUMNS + 2 := by
  obtain ⟨h2wf, h2R, h2C, h2S, h2E, h2grey⟩ := maze_obst_facts R C h1 h2
  have hin0 : inB s2 (0, 0) :=
    ⟨by show (0 : Nat) < s2.ROWS; omega, by show (0 : Nat) < s2.COLUMNS; omega⟩
  subst h3
  have h3R : (resetNode s2 (0, 0)).ROWS = R := by rw [resetNode_ROWS, h2R]
  have h3C : (resetNode s2 (0, 0)).COLUMNS = C := by rw [resetNode_COLUMNS, h2C]
  have h3S : (resetNode s2 (0, 0)).START = none := by
    rw [resetNode_START_cases, h2S]
    split <;> rfl
  have h3E : (resetNode s2 (0, 0)).END = none := by
    rw [resetNode_END_cases, h2S, h2E]
    split <;> rfl
  have h3wf : wf (resetNode s2 (0, 0)) := wf_resetNode h2wf (0, 0)
  have h3col0 : (nodeAt (resetNode s2 (0, 0)) (0, 0)).color = Col.white := by
    rw [nodeAt_resetNode_self h2wf hin0]
    rfl
  have h3col : ∀ r, r ≠ (0, 0) →
      nodeAt (resetNode s2 (0, 0)) r = nodeAt s2 r :=
    fun r hr => nodeAt_resetNode_ne _ hr
  have h3in : ∀ r, inB (resetNode s2 (0, 0)) r ↔ inB s2 r := by
    intro r
    simp only [inB, resetNode_ROWS, resetNode_COLUMNS]
  refine ⟨⟨h3wf, by rw [h3R]; exact hR, by rw [h3C]; exact hC, h3S, h3E,
    ?_, ?_, ?_, ?_, ?_⟩, h3R, h3C, ?_⟩
  · intro p hp
    by_cases hp0 : p = (0, 0)
    · subst hp0
      exact Or.inl h3col0
    · right
      rw [h3col p hp0]
      exact h2grey p ((h3in p).mp hp)
  · intro p hp
    rw [List.mem_singleton] at hp
    subst hp
    exact ⟨(h3in _).mpr hin0, ⟨0, rfl⟩, ⟨0, rfl⟩, h3col0⟩
  · exact h3col0
  · intro p hp hw
    by_cases hp0 : p = (0, 0)
    · subst hp0
      exact WReach.base
    · exfalso
      rw [h3col p hp0, h2grey p ((h3in p).mp hp)] at hw
      exact Col.noConfusion hw
  · intro p hp he1 he2 hw
    by_cases hp0 : p = (0, 0)
    · exact Or.inl (by rw [hp0]; exact List.mem_singleton.mpr rfl)
    · exfalso
      rw [h3col p hp0, h2grey p ((h3in p).mp hp)] at hw
      exact Col.noConfusion hw
  · have hle : greyCount (resetNode s2 (0, 0)) ≤ R * C := by
      rw [greyCount]
      have h : (allPositions (resetNode s2 (0, 0))).countP
            (fun p => is_obstacle (resetNode s2 (0, 0)) p) ≤
          (allPositions (resetNode s2 (0, 0))).length :=
        List.countP_le_length _
      rw [allPositions_length, h3R, h3C] at h
      exact h
    simp only [mazePot, List.length_cons, List.length_nil]
    rw [h3R, h3C, Nat.mul_assoc]
    omega

/-- Full characterization of `generate_maze` on a fresh grid with the End
cell distinct from the origin: Start and End designations, and — whenever the
End cell does not have both coordinates odd — reachability from Start through
non-obstacle cells, for every choice stream. -/
theorem generate_maze_char (R C : Nat) (ch : Nat → Nat) (hR : 1 ≤ R)
    (hC : 1 ≤ C) (hne : ((R - 1, C - 2) : Nat × Nat) ≠ (0, 0)) :
    (generate_maze (create_nodes R C) ch).START = some (0, 0) ∧
    (generate_maze (create_nodes R C) ch).END = some (R - 1, C - 2) ∧
    ((Even (R - 1) ∨ Even (C - 2)) →
      ReachNO (generate_maze (create_nodes R C) ch) (0, 0) (R - 1, C - 2)) := by
  have hrg : reset_grid (create_nodes R C) 0 =
      some ((allPositions (create_nodes R C)).foldl resetNode (create_nodes R C)) := by
    rw [reset_grid, if_pos rfl]
  simp only [generate_maze, hrg, Option.getD_some]
  set s1 := (allPositions (create_nodes R C)).foldl resetNode (create_nodes R C)
    with hs1
  set s2 := (allPositions s1).foldl make_obstacle s1 with hs2
  set s3 := resetNode s2 (0, 0) with hs3
  obtain ⟨hM3, h3R, h3C, h3pot⟩ := maze_init R C hR hC hs1 hs2 hs3
  obtain ⟨hMf, hact, hfR, hfC⟩ := mazeLoop_MInv ch
    (2 * s3.ROWS * s3.COLUMNS + 2) 0 s3 [(0, 0)] hM3 h3pot
  set sf := (mazeLoop ch (2 * s3.ROWS * s3.COLUMNS + 2) 0 s3 [(0, 0)]).1 with hsf
  have hfR' : sf.ROWS = R := hfR.trans h3R
  have hfC' : sf.COLUMNS = C := hfC.trans h3C
  have hisend : is_end sf (0, 0) = false := by simp [is_end, hMf.hen]
  obtain ⟨m1R, m1C, m1S, m1E, m1wf, m1ne, m1self⟩ :=
    make_start_char hMf.hwf (0, 0) hisend
  set s4 := make_start sf (0, 0) with hs4
  have h4R : s4.ROWS = R := m1R.trans hfR'
  have h4C : s4.COLUMNS = C := m1C.trans hfC'
  have hisst : is_start s4 (s4.ROWS - 1, s4.COLUMNS - 2) = false := by
    simp only [is_start, m1S, h4R, h4C]
    simp only [beq_eq_false_iff_ne, ne_eq, Option.some_inj]
    intro hh
    exact hne hh.symm
  obtain ⟨m2R, m2C, m2S, m2E, m2wf, m2ne, m2self⟩ :=
    make_end_char m1wf (s4.ROWS - 1, s4.COLUMNS - 2) hisst
  have he4 : ((s4.ROWS - 1, s4.COLUMNS - 2) : Nat × Nat) = (R - 1, C - 2) := by
    rw [h4R, h4C]
  refine ⟨?_, ?_, ?_⟩
  · rw [m2S, m1S]
  · rw [m2E, he4]
  · intro hpar
    rw [he4] at m2R m2C m2S m2E m2ne m2self ⊢
    have h5R : (make_end s4 (R - 1, C - 2)).ROWS = sf.ROWS := m2R.trans m1R
    have h5C : (make_end s4 (R - 1, C - 2)).COLUMNS = sf.COLUMNS := m2C.trans m1C
    have hin0sf : inB sf (0, 0) :=
      ⟨by show (0 : Nat) < sf.ROWS; omega, by show (0 : Nat) < sf.COLUMNS; omega⟩
    have hinEsf : inB sf (R - 1, C - 2) :=
      ⟨by show R - 1 < sf.ROWS; omega, by show C - 2 < sf.COLUMNS; omega⟩
    have hinEs4 : inB s4 (R - 1, C - 2) :=
      ⟨by show R - 1 < s4.ROWS; omega, by show C - 2 < s4.COLUMNS; omega⟩
    have hne05 : ((0, 0) : Nat × Nat) ≠ (R - 1, C - 2) := fun hh => hne hh.symm
    have hcol50 : (nodeAt (make_end s4 (R - 1, C - 2)) (0, 0)).color =
        Col.blue := by
      rw [m2ne (0, 0) hne05, m1self hin0sf]
    have hcol5e : (nodeAt (make_end s4 (R - 1, C - 2)) (R - 1, C - 2)).color =
        Col.cyan := by
      rw [m2self hinEs4]
    have hob : ∀ q, inB sf q → (nodeAt sf q).color = Col.white →
        is_obstacle (make_end s4 (R - 1, C - 2)) q = false := by
      intro q hq hw
      by_cases h1 : q = (0, 0)
      · subst h1
        simp only [is_obstacle, hcol50]
        rfl
      · by_cases h2 : q = ((R - 1, C - 2) : Nat × Nat)
        · subst h2
          simp only [is_obstacle, hcol5e]
          rfl
        · have hqe : nodeAt (make_end s4 (R - 1, C - 2)) q = nodeAt sf q :=
            (m2ne q h2).trans (m1ne q h1)
          simp only [is_obstacle, hqe, hw]
          rfl
    have hob0 : is_obstacle (make_end s4 (R - 1, C - 2)) (0, 0) = false := by
      simp only [is_obstacle, hcol50]
      rfl
    have hreach : ∀ p, WReach sf p →
        ReachNO (make_end s4 (R - 1, C - 2)) (0, 0) p :=
      wreach_reachNO h5R h5C hin0sf hob hob0
    have hobE : is_obstacle (make_end s4 (R - 1, C - 2)) (R - 1, C - 2) = false := by
      simp only [is_obstacle, hcol5e]
      rfl
    have hinE5 : inB (make_end s4 (R - 1, C - 2)) (R - 1, C - 2) := by
      simp only [inB, h5R, h5C]
      exact hinEsf
    by_cases hE1 : Even (R - 1)
    · by_cases hE2 : Even (C - 2)
      · obtain ⟨i, hi⟩ := hE1
        obtain ⟨j, hj⟩ := hE2
        have hwhite := maze_complete hMf i (by rw [hfR']; omega) j
          (by rw [hfC']; omega)
        have hEq : ((2 * i, 2 * j) : Nat × Nat) = (R - 1, C - 2) := by
          simp only [Prod.mk.injEq]
          omega
        rw [hEq] at hwhite
        exact hreach _ (hMf.conn _ hinEsf hwhite)
      · have hC3 : 3 ≤ C := by
          rcases Nat.even_or_odd (C - 2) with h | h
          · exact absurd h hE2
          · obtain ⟨j, hj⟩ := h
            omega
        have hE2' : Even (C - 3) := by
          rcases Nat.even_or_odd (C - 3) with h | h
          · exact h
          · exfalso
            obtain ⟨j, hj⟩ := h
            exact hE2 ⟨j + 1, by omega⟩
        obtain ⟨i, hi⟩ := hE1
        obtain ⟨j, hj⟩ := hE2'
        have hwhite := maze_complete hMf i (by rw [hfR']; omega) j
          (by rw [hfC']; omega)
        have hEq : ((2 * i, 2 * j) : Nat × Nat) = (R - 1, C - 3) := by
          simp only [Prod.mk.injEq]
          omega
        rw [hEq] at hwhite
        have hinM : inB sf (R - 1, C - 3) :=
          ⟨by show R - 1 < sf.ROWS; omega, by show C - 3 < sf.COLUMNS; omega⟩
        refine ReachNO.step (hreach _ (hMf.conn _ hinM hwhite)) ?_ hinE5 hobE
        exact Or.inl ⟨rfl, Or.inr (by show C - 2 = C - 3 + 1; omega)⟩
    · have hE2 : Even (C - 2) := by
        rcases hpar with h | h
        · exact absurd h hE1
        · exact h
      have hR2 : 2 ≤ R := by
        rcases Nat.even_or_odd (R - 1) with h | h
        · exact absurd h hE1
        · obtain ⟨i, hi⟩ := h
          omega
      have hE1' : Even (R - 2) := by
        rcases Nat.even_or_odd (R - 2) with h | h
        · exact h
        · exfalso
          obtain ⟨i, hi⟩ := h
          exact hE1 ⟨i + 1, by omega⟩
      obtain ⟨i, hi⟩ := hE1'
      obtain ⟨j, hj⟩ := hE2
      have hwhite := maze_complete hMf i (by rw [hfR']; omega) j
        (by rw [hfC']; omega)
      have hEq : ((2 * i, 2 * j) : Nat × Nat) = (R - 2, C - 2) := by
        simp only [Prod.mk.injEq]
        omega
      rw [hEq] at hwhite
      have hinM : inB sf (R - 2, C - 2) :=
        ⟨by show R - 2 < sf.ROWS; omega, by show C - 2 < sf.COLUMNS; omega⟩
      refine ReachNO.step (hreach _ (hMf.conn _ hinM hwhite)) ?_ hinE5 hobE
      exact Or.inr ⟨rfl, Or.inr (by show R - 1 = R - 2 + 1; omega)⟩

/-- C3 (amended): on every fresh `R × C` grid with `R, C ≥ 1` whose End cell
`(R-1, C-2)` (with Python's negative-index wrap for `C ≤ 2`) differs from the
origin and does not have both coordinates odd, the maze generator — for every
stream of random choices — designates the origin as Start and `(R-1, C-2)` as
End, the two are distinct, and End is reachable from Start through
non-Obstacle cells of the carved maze.  (When `(R-1, C-2) = (0, 0)`, i.e.
`R = 1` and `C ≤ 2`, the End designation is skipped entirely; when both
`R-1` and `C-2` are odd, End can be left walled off — see the
counterexample.) -/
theorem C3_amended (R C : Nat) (ch : Nat → Nat) (hR : 1 ≤ R) (hC : 1 ≤ C)
    (hne : ((R - 1, C - 2) : Nat × Nat) ≠ (0, 0))
    (hpar : Even (R - 1) ∨ Even (C - 2)) :
    (generate_maze (create_nodes R C) ch).START = some (0, 0) ∧
    (generate_maze (create_nodes R C) ch).END = some (R - 1, C - 2) ∧
    ((0, 0) : Nat × Nat) ≠ (R - 1, C - 2) ∧
    ReachNO (generate_maze (create_nodes R C) ch) (0, 0) (R - 1, C - 2) := by
  obtain ⟨h1, h2, h3⟩ := generate_maze_char R C ch hR hC hne
  exact ⟨h1, h2, fun hh => hne hh.symm, h3 hpar⟩

/-- Counterexample to C3 as stated: on the 1-by-2 grid the End designation
never happens (`make_end` is a no-op on the Start cell, so `END` stays
`None`); and on the 4-by-5 grid with the all-zeros choice stream the
generator terminates with Start `(0,0)` and End `(3,3)` designated but End
unreachable: the component of non-obstacle cells around the origin (listed in
`sep45`) does not contain it. -/
theorem C3_counterexample :
    (generate_maze (create_nodes 1 2) (fun _ => 0)).END = none ∧
    maze45.START = some (0, 0) ∧
    maze45.END = some (3, 3) ∧
    ¬ ReachNO maze45 (0, 0) (3, 3) := by
  refine ⟨by decide, by decide, by decide, ?_⟩
  refine not_reachNO_of_separating sep45 (by decide) ?_ (by decide)
  intro p hp q hadj hq hob
  have hc := adjacent_mem_adjCands hadj
  have hclosed : ∀ p ∈ sep45, ∀ q ∈ adjCands p,
      ¬ (inB maze45 q ∧ is_obstacle maze45 q = false) ∨ q ∈ sep45 := by decide
  rcases hclosed p hp q hc with h | h
  · exact absurd ⟨hq, hob⟩ h
  · exact h

/-- Witness for C3: the amended theorem instantiated on a fresh 3-by-4 grid
with the all-zeros choice stream (`R-1 = 2` and `C-2 = 2` are both even). -/
theorem C3_witness :
    (generate_maze (create_nodes 3 4) (fun _ => 0)).START = some (0, 0) ∧
    (generate_maze (create_nodes 3 4) (fun _ => 0)).END = some (2, 2) ∧
    ((0, 0) : Nat × Nat) ≠ (2, 2) ∧
    ReachNO (generate_maze (create_nodes 3 4) (fun _ => 0)) (0, 0) (2, 2) :=
  C3_amended 3 4 (fun _ => 0) (by decide) (by decide) (by decide)
    (Or.inl (by decide))

end PF
